import Mathlib

/-!
Verification of the ORT data-interchange format implementation
(TypeScript sources `parser.ts`, `value.ts`, `generator.ts`).

The development shallowly embeds the parser, the value model and the
generator.  Text is modelled as `List Char` at the scanning level (the
TypeScript code iterates strings character by character); `String`
wrappers are provided where a claim speaks about whole strings.
JavaScript `number` payloads are modelled as exact decimal values
`mant * 10 ^ (-exp10)`; binary floating point rounding and the exotic
accepted forms of `Number()` (hexadecimal, exponents, `Infinity`) are
outside the model, which covers the plain decimal forms
`[sign] digits [. digits]` that the theorems below exercise.
-/

namespace ORT

/-- Whitespace recognised by the model of JavaScript `String.trim`
(the common ASCII whitespace characters). -/
def isWs (c : Char) : Bool :=
  c = ' ' || c = '\t' || c = '\r' || c = '\n'

/-- Model of JavaScript `trim`: drop whitespace from both ends. -/
def trim (s : List Char) : List Char :=
  ((s.dropWhile isWs).reverse.dropWhile isWs).reverse

/-- Split a character list at every occurrence of `sep`
(model of JavaScript `split`, which keeps empty pieces). -/
def splitOnChar (sep : Char) : List Char → List (List Char)
  | [] => [[]]
  | c :: cs =>
    let rest := splitOnChar sep cs
    if c = sep then [] :: rest
    else
      match rest with
      | [] => [[c]]
      | p :: ps => (c :: p) :: ps

/-- The ORT value model (`OrtValueType` of `value.ts`): the normalized
native payload of an `OrtValue`.  Object entries keep insertion order,
as JavaScript objects do for the string keys used here. -/
inductive Value where
  | null
  | bool (b : Bool)
  | num (mant : Int) (exp10 : Nat)
  | str (s : String)
  | arr (elems : List Value)
  | obj (entries : List (String × Value))

/-- JavaScript object assignment `obj[key] = v`: an existing key keeps
its position and gets the new value, a new key is appended. -/
def objInsert (entries : List (String × Value)) (k : String) (v : Value) :
    List (String × Value) :=
  match entries with
  | [] => [(k, v)]
  | (k', v') :: rest =>
    if k' = k then (k', v) :: rest else (k', v') :: objInsert rest k v

/-- Decoding of the character following a backslash, from `unescape` in
`parser.ts`: `n`, `t`, `r` give the control character, anything else
stands for itself. -/
def decodeEsc (c : Char) : Char :=
  if c = 'n' then '\n'
  else if c = 't' then '\t'
  else if c = 'r' then '\r'
  else c

/-- The scanning loop of `unescape` in `parser.ts`; the `Bool` is the
`escaped` flag. -/
def unescapeGo : Bool → List Char → List Char
  | _, [] => []
  | true, c :: cs => decodeEsc c :: unescapeGo false cs
  | false, c :: cs =>
    if c = '\\' then unescapeGo true cs else c :: unescapeGo false cs

/-- The function `unescape` of `parser.ts`. -/
def unescapeL (s : List Char) : List Char :=
  unescapeGo false s

/-- Escaping of one character, from `escape` in `generator.ts`:
`(`, `)`, `[`, `]`, `,` and backslash get a backslash prefix, newline,
tab and carriage return become the two-character sequences, everything
else is kept as is. -/
def escChar (c : Char) : List Char :=
  if c = '(' then ['\\', '(']
  else if c = ')' then ['\\', ')']
  else if c = '[' then ['\\', '[']
  else if c = ']' then ['\\', ']']
  else if c = ',' then ['\\', ',']
  else if c = '\\' then ['\\', '\\']
  else if c = '\n' then ['\\', 'n']
  else if c = '\t' then ['\\', 't']
  else if c = '\r' then ['\\', 'r']
  else [c]

/-- The function `escape` of `generator.ts`. -/
def escapeL : List Char → List Char
  | [] => []
  | c :: cs => escChar c ++ escapeL cs

/-- `escape` on whole strings. -/
def escape (s : String) : String :=
  (escapeL s.data).asString

/-- `unescape` on whole strings. -/
def unescape (s : String) : String :=
  (unescapeL s.data).asString

/-! ## Number model

JavaScript `Number(s)` restricted to the plain decimal forms; an
all-whitespace (or empty) string converts to `0`, exactly as in
JavaScript. -/

/-- Value of a digit string. -/
def digitsVal (ds : List Char) : Int :=
  ds.foldl (fun acc c => acc * 10 + (c.toNat - '0'.toNat)) 0

/-- Model of JavaScript `Number(s)`, on the decimal subset
`[+|-] digits [. digits]`; the result is `(mant, exp10)` standing for
`mant / 10 ^ exp10`.  `none` models `NaN`. -/
def jsNumber? (s : List Char) : Option (Int × Nat) :=
  let t := trim s
  if t = [] then some (0, 0)
  else
    let signAndRest : Int × List Char :=
      match t with
      | '+' :: r => (1, r)
      | '-' :: r => (-1, r)
      | _ => (1, t)
    match splitOnChar '.' signAndRest.2 with
    | [ip] =>
      if ip ≠ [] ∧ ip.all Char.isDigit then some (signAndRest.1 * digitsVal ip, 0)
      else none
    | [ip, fp] =>
      if ip ++ fp ≠ [] ∧ (ip ++ fp).all Char.isDigit then
        some (signAndRest.1 * digitsVal (ip ++ fp), fp.length)
      else none
    | _ => none

/-! ## Depth-aware splitting (`parseDataValues`, `splitPairs` of `parser.ts`) -/

/-- The scanning loop of `parseDataValues`: state is the `escaped` flag,
the paren depth, the bracket depth, the current piece and the pieces
collected so far. -/
def parseDataValuesGo : Bool → Int → Int → List Char → List (List Char) →
    List Char → List (List Char)
  | _, _, _, current, values, [] => values ++ [current]
  | true, d, b, current, values, c :: cs =>
    parseDataValuesGo false d b (current ++ [c]) values cs
  | false, d, b, current, values, c :: cs =>
    if c = '\\' then parseDataValuesGo true d b (current ++ [c]) values cs
    else if c = '(' then parseDataValuesGo false (d + 1) b (current ++ [c]) values cs
    else if c = ')' then parseDataValuesGo false (d - 1) b (current ++ [c]) values cs
    else if c = '[' then parseDataValuesGo false d (b + 1) (current ++ [c]) values cs
    else if c = ']' then parseDataValuesGo false d (b - 1) (current ++ [c]) values cs
    else if c = ',' then
      if d = 0 ∧ b = 0 then parseDataValuesGo false d b [] (values ++ [current]) cs
      else parseDataValuesGo false d b (current ++ [c]) values cs
    else parseDataValuesGo false d b (current ++ [c]) values cs

/-- The function `parseDataValues` of `parser.ts` (its unused `lineNum`
parameter is dropped). -/
def parseDataValues (line : List Char) : List (List Char) :=
  parseDataValuesGo false 0 0 [] [] line

/-- The scanning loop of `splitPairs`: identical to `parseDataValuesGo`
except that the final piece is trimmed and kept only when non-empty. -/
def splitPairsGo : Bool → Int → Int → List Char → List (List Char) →
    List Char → List (List Char)
  | _, _, _, current, pairs, [] =>
    let currentStr := trim current
    if currentStr = [] then pairs else pairs ++ [currentStr]
  | true, d, b, current, pairs, c :: cs =>
    splitPairsGo false d b (current ++ [c]) pairs cs
  | false, d, b, current, pairs, c :: cs =>
    if c = '\\' then splitPairsGo true d b (current ++ [c]) pairs cs
    else if c = '(' then splitPairsGo false (d + 1) b (current ++ [c]) pairs cs
    else if c = ')' then splitPairsGo false (d - 1) b (current ++ [c]) pairs cs
    else if c = '[' then splitPairsGo false d (b + 1) (current ++ [c]) pairs cs
    else if c = ']' then splitPairsGo false d (b - 1) (current ++ [c]) pairs cs
    else if c = ',' then
      if d = 0 ∧ b = 0 then splitPairsGo false d b [] (pairs ++ [current]) cs
      else splitPairsGo false d b (current ++ [c]) pairs cs
    else splitPairsGo false d b (current ++ [c]) pairs cs

/-- The function `splitPairs` of `parser.ts`. -/
def splitPairs (s : List Char) : List (List Char) :=
  splitPairsGo false 0 0 [] [] s

/-- The last-piece adjustment that distinguishes the inline-collection
splitters (`splitPairs`, `parseArray`) from `parseDataValues`: the
pieces ending at a top-level comma are kept raw, while the piece after
the last top-level comma is trimmed and dropped when blank. -/
def endTrim : List (List Char) → List (List Char)
  | [] => []
  | [x] => if trim x = [] then [] else [trim x]
  | x :: y :: xs => x :: endTrim (y :: xs)

/-! ## Generic value grammar (`parseValue`, `parseArray`,
`parseInlineObject` of `parser.ts`)

The three functions are mutually recursive on ever shorter strings; the
embedding breaks the knot with a function parameter `pv` (the
recursive occurrence of `parseValue`) and ties it with the fuelled
`parseValueF`, whose fuel strictly exceeds the input length. -/

/-- Split at the first occurrence of `c` (JavaScript `indexOf` plus the
two `substring` calls); `none` when `c` does not occur. -/
def splitAtFirst (c : Char) : List Char → Option (List Char × List Char)
  | [] => none
  | x :: xs =>
    if x = c then some ([], xs)
    else
      match splitAtFirst c xs with
      | none => none
      | some (a, b) => some (x :: a, b)

/-- The scanning loop of `parseArray`: the same depth-aware split, with
each completed piece parsed by `pv`; the final piece is parsed only when
its trim is non-empty. -/
def parseArrayGo (pv : List Char → Value) : Bool → Int → Int → List Char →
    List Value → List Char → List Value
  | _, _, _, current, result, [] =>
    let currentStr := trim current
    if currentStr = [] then result else result ++ [pv currentStr]
  | true, d, b, current, result, c :: cs =>
    parseArrayGo pv false d b (current ++ [c]) result cs
  | false, d, b, current, result, c :: cs =>
    if c = '\\' then parseArrayGo pv true d b (current ++ [c]) result cs
    else if c = '(' then parseArrayGo pv false (d + 1) b (current ++ [c]) result cs
    else if c = ')' then parseArrayGo pv false (d - 1) b (current ++ [c]) result cs
    else if c = '[' then parseArrayGo pv false d (b + 1) (current ++ [c]) result cs
    else if c = ']' then parseArrayGo pv false d (b - 1) (current ++ [c]) result cs
    else if c = ',' then
      if d = 0 ∧ b = 0 then parseArrayGo pv false d b [] (result ++ [pv current]) cs
      else parseArrayGo pv false d b (current ++ [c]) result cs
    else parseArrayGo pv false d b (current ++ [c]) result cs

/-- The function `parseArray` of `parser.ts`, with the recursive
`parseValue` abstracted as `pv`. -/
def parseArrayWith (pv : List Char → Value) (s : List Char) : Value :=
  if trim s = [] then .arr []
  else .arr (parseArrayGo pv false 0 0 [] [] s)

/-- The function `parseInlineObject` of `parser.ts`, with the recursive
`parseValue` abstracted as `pv`: split into pairs, take the part before
the first colon as key, parse the part after it, skip pairs without a
colon. -/
def parseInlineObjectWith (pv : List Char → Value) (s : List Char) : Value :=
  if trim s = [] then .obj []
  else
    .obj ((splitPairs s).foldl
      (fun acc pair =>
        match splitAtFirst ':' pair with
        | none => acc
        | some (k, v) => objInsert acc (trim k).asString (pv (trim v)))
      [])

/-- The function `parseValue` of `parser.ts`, fuelled: empty → null,
`[]` → empty array, `()` → empty object, bracketed → array, parenthesized
→ inline object, otherwise unescape then number / boolean / string. -/
def parseValueF : Nat → List Char → Value
  | 0, _ => .null
  | fuel + 1, s =>
    let trimmed := trim s
    if trimmed = [] then .null
    else if trimmed = ['[', ']'] then .arr []
    else if trimmed = ['(', ')'] then .obj []
    else if trimmed.head? = some '[' ∧ trimmed.getLast? = some ']' then
      parseArrayWith (parseValueF fuel) ((trimmed.drop 1).dropLast)
    else if trimmed.head? = some '(' ∧ trimmed.getLast? = some ')' then
      parseInlineObjectWith (parseValueF fuel) ((trimmed.drop 1).dropLast)
    else
      let unescaped := unescapeL trimmed
      match jsNumber? unescaped with
      | some (m, e) => .num m e
      | none =>
        if unescaped = "true".data then .bool true
        else if unescaped = "false".data then .bool false
        else .str unescaped.asString

/-- `parseValue` with sufficient fuel: every recursive call strips at
least the two enclosing brackets, so the input length bounds the
recursion depth. -/
def parseValueL (s : List Char) : Value :=
  parseValueF (s.length + 1) s

/-! ## Headers and field lists -/

/-- The parse error of `parser.ts` (`OrtParseError`): 1-based line
number, the offending line as the parser passes it, and a message. -/
structure OrtParseError where
  lineNum : Nat
  line : String
  message : String
deriving DecidableEq, Repr

/-- The parser-internal `Field`: a name plus nested sub-fields. -/
inductive Field where
  | mk (name : String) (nestedFields : List Field)

/-- Projection for the field name. -/
def Field.name : Field → String
  | .mk n _ => n

/-- Projection for the nested sub-fields. -/
def Field.nestedFields : Field → List Field
  | .mk _ fs => fs

/-- `isNestedField` of `parser.ts`: the field has nested sub-fields. -/
def isNestedField (f : Field) : Bool :=
  !f.nestedFields.isEmpty

/-- `isHeader` of `parser.ts`: a trimmed line is a header iff it starts
with a colon, or it splits on colons into at least two parts with an
empty last part. -/
def isHeader (line : List Char) : Bool :=
  let trimmed := trim line
  if trimmed.head? = some ':' then true
  else
    let parts := splitOnChar ':' trimmed
    decide (2 ≤ parts.length) && (parts.getLast? == some [])

/-- Model of `.replace(/:$/, '')`: remove one trailing colon. -/
def dropTrailingColon (s : List Char) : List Char :=
  match s.getLast? with
  | some ':' => s.dropLast
  | _ => s

/-- `parseHeader` of `parser.ts`.  For a line starting with a colon the
key is absent and the field text is the rest without a trailing colon;
otherwise the key is the trimmed text before the first colon and the
field text the trimmed rest without a trailing colon.  A line with no
colon at all is the (unreachable from `parseOrt`) error case. -/
def parseHeader (line : List Char) (lineNum : Nat) :
    Except OrtParseError (Option String × List Char) :=
  if line.head? = some ':' then
    .ok (none, dropTrailingColon (line.drop 1))
  else
    match splitAtFirst ':' line with
    | none => .error ⟨lineNum, line.asString, "Invalid header format"⟩
    | some (before, after) =>
      .ok (some (trim before).asString, trim (dropTrailingColon after))

/-- The inner scan of `parseFields` that extracts a parenthesized nested
field list: characters are collected while the nesting count stays
positive; the closing paren is consumed but not collected.  Returns the
collected characters and the rest of the input. -/
def scanNested (nestedDepth : Nat) : List Char → (List Char × List Char)
  | [] => ([], [])
  | c :: cs =>
    let d : Nat :=
      if c = '(' then nestedDepth + 1
      else if c = ')' then nestedDepth - 1
      else nestedDepth
    if 0 < d then
      let inner := scanNested d cs
      (c :: inner.1, inner.2)
    else ([], cs)

/-- The character loop of `parseFields`; `pf` is the recursive call on a
nested field list, `scanFuel` strictly exceeds the remaining length.  A
`(` at depth 0 opens a nested list, a `)` below depth 0 is the
"Unmatched closing parenthesis" error, a `,` at depth 0 closes the
current field (dropped when its trim is empty). -/
def parseFieldsGo (pf : List Char → Except OrtParseError (List Field))
    (line : List Char) (lineNum : Nat) :
    Nat → List Char → List Char → Int → List Field →
    Except OrtParseError (List Field)
  | 0, _, current, _, result =>
    -- fuel exhaustion: unreachable, the wrapper supplies length + 1
    let field := trim current
    .ok (if field = [] then result else result ++ [Field.mk field.asString []])
  | _ + 1, [], current, _, result =>
    let field := trim current
    .ok (if field = [] then result else result ++ [Field.mk field.asString []])
  | scanFuel + 1, c :: cs, current, depth, result =>
    if c = '(' then
      if depth = 0 then
        let fieldName := trim current
        let scanned := scanNested 1 cs
        do
          let nestedFields ← pf scanned.1
          parseFieldsGo pf line lineNum scanFuel scanned.2 [] depth
            (result ++ [Field.mk fieldName.asString nestedFields])
      else
        parseFieldsGo pf line lineNum scanFuel cs (current ++ [c]) (depth + 1) result
    else if c = ')' then
      if depth - 1 < 0 then
        .error ⟨lineNum, line.asString, "Unmatched closing parenthesis"⟩
      else
        parseFieldsGo pf line lineNum scanFuel cs (current ++ [c]) (depth - 1) result
    else if c = ',' then
      if depth = 0 then
        let field := trim current
        parseFieldsGo pf line lineNum scanFuel cs [] depth
          (if field = [] then result else result ++ [Field.mk field.asString []])
      else
        parseFieldsGo pf line lineNum scanFuel cs (current ++ [c]) depth result
    else
      parseFieldsGo pf line lineNum scanFuel cs (current ++ [c]) depth result

/-- `parseFields` of `parser.ts`, fuelled on the nesting depth (which
the input length bounds). -/
def parseFieldsF : Nat → List Char → List Char → Nat →
    Except OrtParseError (List Field)
  | 0, _, _, _ => .ok []
  | nestFuel + 1, s, line, lineNum =>
    if s = [] then .ok []
    else
      parseFieldsGo (fun nested => parseFieldsF nestFuel nested line lineNum)
        line lineNum (s.length + 1) s [] 0 []

/-- `parseFields` with sufficient fuel. -/
def parseFields (s : List Char) (line : List Char) (lineNum : Nat) :
    Except OrtParseError (List Field) :=
  parseFieldsF (s.length + 1) s line lineNum

/-! ## Data lines and the top-level loop -/

/-- The record-building loop shared by `parseDataLines` and
`parseFieldValue`: fold field/value pairs into a JavaScript object with
`obj[field.name] = value`. -/
def buildObjWith (pfv : Field → List Char → Except OrtParseError Value) :
    List (Field × List Char) → List (String × Value) →
    Except OrtParseError (List (String × Value))
  | [], acc => .ok acc
  | (f, v) :: rest, acc => do
    let value ← pfv f v
    buildObjWith pfv rest (objInsert acc f.name value)

/-- `parseFieldValue` of `parser.ts`, fuelled on the field structure:
a leaf field parses its text as a generic value; a nested field accepts
empty → null, `()` → empty object, a bracketed array, a fallback generic
value, or a parenthesized tuple split positionally against the nested
sub-fields (arity mismatch is the "Expected N nested values" error). -/
def parseFieldValueF : Nat → Field → List Char → List Char → Nat →
    Except OrtParseError Value
  | 0, _, _, _, _ => .ok .null
  | fuel + 1, field, valueStr, line, lineNum =>
    if !isNestedField field then .ok (parseValueL valueStr)
    else
      let trimmed := trim valueStr
      if trimmed = [] then .ok .null
      else if trimmed = ['(', ')'] then .ok (.obj [])
      else if trimmed.head? = some '[' ∧ trimmed.getLast? = some ']' then
        .ok (parseValueL trimmed)
      else if ¬(trimmed.head? = some '(' ∧ trimmed.getLast? = some ')') then
        .ok (parseValueL trimmed)
      else
        let inner := (trimmed.drop 1).dropLast
        let values := parseDataValues inner
        if values.length ≠ field.nestedFields.length then
          .error ⟨lineNum, line.asString,
            "Expected " ++ toString field.nestedFields.length ++
              " nested values but got " ++ toString values.length⟩
        else do
          let obj ← buildObjWith
            (fun f v => parseFieldValueF fuel f v line lineNum)
            (field.nestedFields.zip values) []
          .ok (.obj obj)

/-- `parseFieldValue` with sufficient fuel: every recursive call works
on a piece of the tuple interior, which is at least two characters
shorter, so the value-string length bounds the recursion depth. -/
def parseFieldValue (field : Field) (valueStr line : List Char)
    (lineNum : Nat) : Except OrtParseError Value :=
  parseFieldValueF (valueStr.length + 1) field valueStr line lineNum

/-- The loop of `parseDataLines`: `ls` is the tail of the document
after the header, `idx` the 0-based absolute index of its first line,
`remaining` the data-line budget of the section.  Blank and comment
lines are skipped; with an empty field list the first data line is
parsed as a generic value and returned at once; otherwise each data
line is split (arity mismatch is the "Expected N values" error) and
folded into a record. -/
def parseDataLinesGo (fields : List Field) :
    List (List Char) → Nat → Nat → List Value → Except OrtParseError Value
  | _, _, 0, acc => .ok (.arr acc)
  | [], _, _ + 1, acc => .ok (.arr acc)
  | l :: ls, idx, remaining + 1, acc =>
    let line := trim l
    if line = [] || line.head? = some '#' then
      parseDataLinesGo fields ls (idx + 1) (remaining + 1) acc
    else
      let lineNum := idx + 1
      if fields.isEmpty then .ok (parseValueL line)
      else
        let values := parseDataValues line
        if values.length ≠ fields.length then
          .error ⟨lineNum, line.asString,
            "Expected " ++ toString fields.length ++ " values but got " ++
              toString values.length⟩
        else do
          let obj ← buildObjWith (fun f v => parseFieldValue f v line lineNum)
            (fields.zip values) []
          parseDataLinesGo fields ls (idx + 1) remaining (acc ++ [.obj obj])

/-- `parseDataLines` of `parser.ts`, over the lines after the header. -/
def parseDataLines (ls : List (List Char)) (idx : Nat) (fields : List Field)
    (count : Nat) : Except OrtParseError Value :=
  parseDataLinesGo fields ls idx count []

/-- The data-line counting loop of `parseSection`: non-blank,
non-comment lines until the next header (or the end). -/
def countDataLines : List (List Char) → Nat
  | [] => 0
  | l :: ls =>
    let t := trim l
    if t = [] || t.head? = some '#' then countDataLines ls
    else if t.contains ':' && isHeader t then 0
    else countDataLines ls + 1

/-- `parseSection` of `parser.ts`: the header line `l` (raw), the lines
after it, and the 1-based header line number; yields the optional key,
the parsed field list and the data-line count. -/
def parseSection (l : List Char) (ls : List (List Char)) (lineNum : Nat) :
    Except OrtParseError (Option String × List Field × Nat) := do
  let line := trim l
  let dataLines := countDataLines ls
  let header ← parseHeader line lineNum
  let fields ← parseFields header.2 line lineNum
  pure (header.1, fields, dataLines)

/-- The `while` loop of `parseOrt`: `idx` is the 0-based index of the
first line of `rest`, `result` the named-section accumulator.  Blank,
comment, and colon-free lines are skipped; a named section stores its
value and advances past its data lines; an anonymous section returns
immediately, unwrapping a single record when the section has exactly
one data line and a non-empty field list. -/
def parseLoop : Nat → List (List Char) → Nat → List (String × Value) →
    Except OrtParseError Value
  | 0, _, _, result => .ok (.obj result)
  | _ + 1, [], _, result => .ok (.obj result)
  | fuel + 1, l :: ls, idx, result =>
    let line := trim l
    if line = [] || line.head? = some '#' then parseLoop fuel ls (idx + 1) result
    else if line.contains ':' then do
      let sec ← parseSection l ls (idx + 1)
      let (key, fields, dataLines) := sec
      match key with
      | some k => do
        let values ← parseDataLines ls (idx + 1) fields dataLines
        parseLoop fuel (ls.drop dataLines) (idx + dataLines + 1)
          (objInsert result k values)
      | none => do
        let values ← parseDataLines ls (idx + 1) fields dataLines
        if fields.length > 0 ∧ dataLines = 1 then
          match values with
          | .arr [v] => .ok v
          | _ => .ok values
        else .ok values
    else parseLoop fuel ls (idx + 1) result

/-- The body of `parseOrt` on an already-split line list; the fuel
strictly exceeds the line count and every loop iteration consumes at
least one line. -/
def parseLines (lines : List (List Char)) : Except OrtParseError Value :=
  parseLoop (lines.length + 1) lines 0 []

/-- `parseOrt` of `parser.ts`: split on newlines and run the loop. -/
def parseOrt (content : List Char) : Except OrtParseError Value :=
  parseLines (splitOnChar '\n' content)

/-- The public `parse` of `index.ts`. -/
def parse (s : String) : Except OrtParseError Value :=
  parseOrt s.data

/-! ## Generator (`generator.ts`)

The generator recurses through the nested `Value` tree; the embedding
uses well-founded recursion with `List.attach` for the recursive maps.
Small lemmas below restate the equations in the `List.map` form of the
source. -/

/-- JavaScript `String(value)` for a number `mant / 10 ^ exp10`:
integral values print without a fractional part, other values as a
decimal with trailing zeros removed. -/
def numToString (m : Int) (e : Nat) : String :=
  if e = 0 then toString m
  else
    let ds := m.natAbs.repr.data
    let padded :=
      if ds.length < e + 1 then List.replicate (e + 1 - ds.length) '0' ++ ds
      else ds
    let ip := padded.take (padded.length - e)
    let fp := ((padded.drop (padded.length - e)).reverse.dropWhile (· = '0')).reverse
    (if m < 0 then "-" else "") ++ ip.asString ++
      (if fp = [] then "" else "." ++ fp.asString)

/-- Lexicographic comparison of character lists by code point: the
effect of JavaScript's default string sort. -/
def charListLe : List Char → List Char → Bool
  | [], _ => true
  | _ :: _, [] => false
  | a :: as, b :: bs =>
    if a.toNat < b.toNat then true
    else if b.toNat < a.toNat then false
    else charListLe as bs

/-- The string order used by `Object.keys(x).sort()`. -/
def keyLe (a b : String) : Prop :=
  charListLe a.data b.data = true

instance : DecidableRel keyLe := fun a b => by
  unfold keyLe
  infer_instance

/-- `Object.keys(x).sort()` of `isUniformObjectArray`. -/
def sortKeys (ks : List String) : List String :=
  List.insertionSort keyLe ks

instance : IsTotal String keyLe where
  total a b := by
    have key : ∀ as bs : List Char, charListLe as bs = true ∨ charListLe bs as = true := by
      intro as
      induction as with
      | nil => intro bs; left; rfl
      | cons a as ih =>
        intro bs
        cases bs with
        | nil => right; rfl
        | cons b bs =>
          simp only [charListLe]
          rcases Nat.lt_trichotomy a.toNat b.toNat with h | h | h
          · left; simp [h]
          · have h1 : ¬ a.toNat < b.toNat := by omega
            have h2 : ¬ b.toNat < a.toNat := by omega
            simp only [h1, h2, if_false]
            exact ih bs
          · right; simp [h]
    exact key a.data b.data

instance : IsTrans String keyLe where
  trans a b c hab hbc := by
    have key : ∀ as bs cs : List Char, charListLe as bs = true →
        charListLe bs cs = true → charListLe as cs = true := by
      intro as
      induction as with
      | nil => intro bs cs _ _; rfl
      | cons a as ih =>
        intro bs cs hab hbc
        cases bs with
        | nil => simp [charListLe] at hab
        | cons b bs =>
          cases cs with
          | nil => simp [charListLe] at hbc
          | cons c cs =>
            simp only [charListLe] at hab hbc ⊢
            by_cases h1 : a.toNat < b.toNat <;> by_cases h2 : b.toNat < c.toNat <;>
              simp only [h1, h2, if_true, if_false] at hab hbc ⊢
            · have : a.toNat < c.toNat := by omega
              simp [this]
            · by_cases h3 : c.toNat < b.toNat
              · simp [h3] at hbc
              · have : a.toNat < c.toNat := by omega
                simp [this]
            · by_cases h3 : b.toNat < a.toNat
              · simp [h3] at hab
              · have : a.toNat < c.toNat := by omega
                simp [this]
            · by_cases h3 : b.toNat < a.toNat
              · simp [h3] at hab
              · by_cases h4 : c.toNat < b.toNat
                · simp [h4] at hbc
                · have h5 : ¬ a.toNat < c.toNat := by omega
                  have h6 : ¬ c.toNat < a.toNat := by omega
                  simp only [if_neg h3] at hab
                  simp only [if_neg h4] at hbc
                  simp only [h5, h6, if_false]
                  exact ih bs cs hab hbc
    exact key a.data b.data c.data hab hbc

instance : IsAntisymm String keyLe where
  antisymm a b hab hba := by
    have key : ∀ as bs : List Char, charListLe as bs = true →
        charListLe bs as = true → as = bs := by
      intro as
      induction as with
      | nil =>
        intro bs _ hba
        cases bs with
        | nil => rfl
        | cons b bs => simp [charListLe] at hba
      | cons a as ih =>
        intro bs hab hba
        cases bs with
        | nil => simp [charListLe] at hab
        | cons b bs =>
          simp only [charListLe] at hab hba
          by_cases h1 : a.toNat < b.toNat
          · have h2 : ¬ b.toNat < a.toNat := by omega
            simp [h1, h2] at hba
          · by_cases h2 : b.toNat < a.toNat
            · simp [h1, h2] at hab
            · have hn : a.toNat = b.toNat := by omega
              have he : a = b := Char.ext (UInt32.toNat.inj hn)
              simp only [h1, h2, if_false] at hab hba
              rw [he, ih bs hab hba]
    have h := key a.data b.data hab hba
    cases a
    cases b
    exact congrArg String.mk h


/-- `typeof x === 'object' && x !== null && !Array.isArray(x)`. -/
def isObjVal : Value → Bool
  | .obj _ => true
  | _ => false

/-- The keys of an object value (empty for everything else). -/
def keysOf : Value → List String
  | .obj es => es.map (·.1)
  | _ => []

/-- The entries of an object value (empty for everything else). -/
def entriesOf : Value → List (String × Value)
  | .obj es => es
  | _ => []

/-- JavaScript `item[k]`: a missing key reads as `undefined`, which the
generator renders exactly like `null`. -/
def getKey (entries : List (String × Value)) (k : String) : Value :=
  match entries.lookup k with
  | some v => v
  | none => .null

/-- `isUniformObjectArray` of `generator.ts`: non-empty, first element a
non-array object, and every later element a non-array object whose
sorted key list equals the first element's sorted key list. -/
def isUniformObjectArray (arr : List Value) : Bool :=
  match arr with
  | [] => false
  | x :: rest =>
    isObjVal x &&
      rest.all (fun item =>
        isObjVal item && (sortKeys (keysOf item) == sortKeys (keysOf x)))

mutual

/-- `generateValue` of `generator.ts`. -/
def generateValue : Value → Bool → String
  | .null, _ => ""
  | .bool b, _ => if b then "true" else "false"
  | .num m e, _ => numToString m e
  | .str s, _ => escape s
  | .arr es, _ =>
    if es.isEmpty then "[]" else "[" ++ generateArrayContent es true ++ "]"
  | .obj entries, _ =>
    if entries.isEmpty then "()" else generateInlineObject entries

/-- `generateArrayContent` of `generator.ts`. -/
def generateArrayContent (arr : List Value) (inline : Bool) : String :=
  if arr.isEmpty then "[]"
  else
    let values := generateValueEach arr inline
    if inline then String.intercalate "," values
    else "[" ++ String.intercalate "," values ++ "]"

/-- The `arr.map(v => generateValue(v, inline))` loop of
`generateArrayContent`. -/
def generateValueEach : List Value → Bool → List String
  | [], _ => []
  | v :: rest, inline => generateValue v inline :: generateValueEach rest inline

/-- `generateInlineObject` of `generator.ts`. -/
def generateInlineObject (entries : List (String × Value)) : String :=
  "(" ++ String.intercalate "," (generatePairEach entries) ++ ")"

/-- The `Object.entries(obj).map(([k, v]) => ...)` loop of
`generateInlineObject`. -/
def generatePairEach : List (String × Value) → List String
  | [] => []
  | (k, v) :: rest => (k ++ ":" ++ generateValue v true) :: generatePairEach rest

end

mutual

/-- `generateObjectFieldValue` of `generator.ts` (its unused `keys`,
`currentKey` and `parent` parameters are dropped; the nested-object
loop over `Object.keys(value)` reads the value's own keys, i.e. it
walks the value's entries). -/
def generateObjectFieldValue : Value → String
  | .null => ""
  | .obj entries =>
    if entries.isEmpty then "()"
    else "(" ++ String.intercalate "," (generateFieldEach entries) ++ ")"
  | .arr es =>
    if es.isEmpty then "[]" else "[" ++ generateArrayContent es true ++ "]"
  | v => generateValue v true

/-- The `nestedKeys.map(k => generateObjectFieldValue(value[k], ...))`
loop of `generateObjectFieldValue`. -/
def generateFieldEach : List (String × Value) → List String
  | [] => []
  | (_, v) :: rest => generateObjectFieldValue v :: generateFieldEach rest

end

mutual

/-- `generateHeaderFields` of `generator.ts`: the loop reads `obj[k]`
for each own key `k` of `obj`, i.e. it walks the entries in order. -/
def generateHeaderFields (entries : List (String × Value)) : String :=
  String.intercalate "," (generateHeaderPartEach entries)

/-- One header part per entry: a nested-object entry contributes
`name(subfields)`, every other entry just its name. -/
def generateHeaderPartEach : List (String × Value) → List String
  | [] => []
  | (k, .obj nested) :: rest =>
    (k ++ "(" ++ generateHeaderFields nested ++ ")") :: generateHeaderPartEach rest
  | (k, _) :: rest => k :: generateHeaderPartEach rest

end

/-- `generateHeader` of `generator.ts`: identical loop, with a trailing
colon. -/
def generateHeader (entries : List (String × Value)) : String :=
  generateHeaderFields entries ++ ":"

/-- `generateObjectArray` of `generator.ts`: named tabular block. -/
def generateObjectArray (key : String) (arr : List Value) : String :=
  match arr with
  | [] => key ++ ":\n[]"
  | first :: _ =>
    let keys := keysOf first
    let header := generateHeader (entriesOf first)
    let rows := arr.map (fun item =>
      String.intercalate ","
        (keys.map (fun k => generateObjectFieldValue (getKey (entriesOf item) k))))
    String.intercalate "\n" ((key ++ ":" ++ header) :: rows)

/-- `generateTopLevelObjectArray` of `generator.ts`: anonymous tabular
block. -/
def generateTopLevelObjectArray (arr : List Value) : String :=
  match arr with
  | [] => ":[]"
  | first :: _ =>
    let keys := keysOf first
    let header := generateHeader (entriesOf first)
    let rows := arr.map (fun item =>
      String.intercalate ","
        (keys.map (fun k => generateObjectFieldValue (getKey (entriesOf item) k))))
    String.intercalate "\n" ((":" ++ header) :: rows)

/-- `generateSimpleArray` of `generator.ts`. -/
def generateSimpleArray (key : String) (arr : List Value) : String :=
  key ++ ":\n" ++ generateArrayContent arr false

/-- JavaScript `trimEnd`. -/
def trimEnd (s : String) : String :=
  ((s.data.reverse.dropWhile isWs).reverse).asString

/-- One block of `generateMultiObject`: array values choose between the
empty, tabular, and bracketed forms; anything else is
`key:` followed by the literal form. -/
def generateBlock (kv : String × Value) : String :=
  match kv.2 with
  | .arr [] => kv.1 ++ ":\n[]"
  | .arr arr =>
    if isUniformObjectArray arr then trimEnd (generateObjectArray kv.1 arr)
    else trimEnd (generateSimpleArray kv.1 arr)
  | v => kv.1 ++ ":\n" ++ generateValue v false

/-- `generateMultiObject` of `generator.ts`: blocks joined by blank
lines, a final newline after the last block (and the empty string for an
object with no entries). -/
def generateMultiObject (entries : List (String × Value)) : String :=
  match entries with
  | [] => ""
  | _ => String.intercalate "\n\n" (entries.map generateBlock) ++ "\n"

/-- `generateOrt` of `generator.ts`. -/
def generateOrt : Value → String
  | .obj entries =>
    if entries.length > 1 ∨ entries.length = 0 then generateMultiObject entries
    else
      match entries with
      | [(key, .arr [])] => key ++ ":\n[]"
      | [(key, .arr arr)] =>
        if isUniformObjectArray arr then generateObjectArray key arr
        else generateSimpleArray key arr
      | [(key, v)] => key ++ ":\n" ++ generateValue v false
      | _ => ""
  | .arr arr =>
    if isUniformObjectArray arr then generateTopLevelObjectArray arr
    else ":" ++ generateArrayContent arr false
  | v => generateValue v false

/-- The public `generate` of `index.ts` (`createOrtValue` normalizes,
which is the identity on the already-normalized `Value` model). -/
def generate (v : Value) : String :=
  generateOrt v

/-- `getOrDefault` of `value.ts`: `new OrtValue(obj[key] ?? default)`.
On a non-object receiver or an absent key the default is returned; a
stored `null` also falls to the default through the JavaScript `??`
operator.  The constructor's normalization is the identity on the
already-normalized `Value` model. -/
def getOrDefault (v : Value) (key : String) (deflt : Value) : Value :=
  match v with
  | .obj entries =>
    match entries.lookup key with
    | some .null => deflt
    | some x => x
    | none => deflt
  | _ => deflt

/-- Modelled from the spec: one step of the splitting scan state — the
escape flag and the two independent nesting counters for `(...)` and
`[...]`.  A backslash escapes exactly the next character, so an escaped
comma, bracket or paren never affects the depths. -/
def specSplitStep (st : Bool × Int × Int) (c : Char) : Bool × Int × Int :=
  if st.1 then (false, st.2.1, st.2.2)
  else if c = '\\' then (true, st.2.1, st.2.2)
  else if c = '(' then (false, st.2.1 + 1, st.2.2)
  else if c = ')' then (false, st.2.1 - 1, st.2.2)
  else if c = '[' then (false, st.2.1, st.2.2 + 1)
  else if c = ']' then (false, st.2.1, st.2.2 - 1)
  else (false, st.2.1, st.2.2)

/-- Modelled from the spec: the number of top-level commas — unescaped
commas seen with both nesting counters at zero. -/
def specCommaCountGo : Bool × Int × Int → List Char → Nat
  | _, [] => 0
  | st, c :: cs =>
    (if st.1 = false ∧ st.2.1 = 0 ∧ st.2.2 = 0 ∧ c = ',' then 1 else 0) +
      specCommaCountGo (specSplitStep st c) cs

/-- Modelled from the spec: top-level comma count of a whole string. -/
def specTopLevelCommaCount (s : List Char) : Nat :=
  specCommaCountGo (false, 0, 0) s

/-! ## Heap model for the mutation claims (`value.ts`)

In JavaScript, nested arrays and objects inside an `OrtValue`'s payload
are heap references, so aliasing is observable through `set`.  This
section models the payload graph explicitly: `JVal` is an immediate
value (scalars are immutable, containers are references into a heap of
`JNode`s).  The constructor's `normalize` rebuilds every container it
meets into freshly allocated nodes — the deep copy under scrutiny in
the claim.  Fuel bounds the traversal of a (necessarily acyclic)
payload graph; `none` models a failed traversal and the thrown
`TypeError`, `KeyError` and range errors. -/

/-- An immediate JavaScript value: scalar payloads are immutable,
containers live behind a heap address. -/
inductive JVal where
  | null
  | bool (b : Bool)
  | num (mant : Int) (exp10 : Nat)
  | str (s : String)
  | ref (a : Nat)
deriving DecidableEq, Repr

/-- A heap node: a native array or object of `value.ts`. -/
inductive JNode where
  | arr (elems : List JVal)
  | obj (entries : List (String × JVal))
deriving DecidableEq, Repr

/-- The heap: an association of addresses to nodes, plus the next fresh
address. -/
structure Heap where
  mem : List (Nat × JNode)
  next : Nat
deriving DecidableEq, Repr

/-- Address lookup. -/
def Heap.lookupA (h : Heap) (a : Nat) : Option JNode :=
  h.mem.lookup a

/-- Allocation of a fresh node. -/
def Heap.alloc (h : Heap) (n : JNode) : Nat × Heap :=
  (h.next, ⟨h.mem ++ [(h.next, n)], h.next + 1⟩)

/-- In-place update of the node at an address. -/
def Heap.write (h : Heap) (a : Nat) (n : JNode) : Heap :=
  ⟨h.mem.map (fun p => if p.1 = a then (a, n) else p), h.next⟩

/-- The `value.map(v => new OrtValue(v)._value)` loop of `normalize`. -/
def normalizeListWith (nv : JVal → Heap → Option (JVal × Heap)) :
    List JVal → Heap → Option (List JVal × Heap)
  | [], h => some ([], h)
  | v :: rest, h => do
    let r ← nv v h
    let rs ← normalizeListWith nv rest r.2
    some (r.1 :: rs.1, rs.2)

/-- The `Object.entries` loop of `normalize`. -/
def normalizeEntriesWith (nv : JVal → Heap → Option (JVal × Heap)) :
    List (String × JVal) → Heap → Option (List (String × JVal) × Heap)
  | [], h => some ([], h)
  | (k, v) :: rest, h => do
    let r ← nv v h
    let rs ← normalizeEntriesWith nv rest r.2
    some ((k, r.1) :: rs.1, rs.2)

/-- `normalize` of `value.ts` on the heap model: scalars are returned
unchanged, a reference is deep-copied — every container is rebuilt into
a freshly allocated node with normalized children. -/
def normalizeF : Nat → JVal → Heap → Option (JVal × Heap)
  | 0, _, _ => none
  | fuel + 1, v, h =>
    match v with
    | .ref a =>
      match h.lookupA a with
      | some (.arr elems) => do
        let r ← normalizeListWith (normalizeF fuel) elems h
        let al := r.2.alloc (.arr r.1)
        some (.ref al.1, al.2)
      | some (.obj entries) => do
        let r ← normalizeEntriesWith (normalizeF fuel) entries h
        let al := r.2.alloc (.obj r.1)
        some (.ref al.1, al.2)
      | none => none
    | x => some (x, h)

/-- `normalize` with fuel sufficient for every acyclic heap: the
traversal depth is bounded by the node count. -/
def normalizeJ (v : JVal) (h : Heap) : Option (JVal × Heap) :=
  normalizeF (h.mem.length + 1) v h

/-- A `get`/`set` key: a string key or an array index (`value.ts`
accepts `string | number`). -/
inductive JKey where
  | s (k : String)
  | i (n : Nat)
deriving DecidableEq, Repr

/-- `get` of `value.ts`: a string key requires an object receiver and a
present key, an index requires an array receiver and an in-range index;
the sub-value is returned through `new OrtValue(...)`, i.e. normalized
into a fresh copy.  `none` models the thrown errors. -/
def getJ (root : JVal) (k : JKey) (h : Heap) : Option (JVal × Heap) :=
  match k with
  | .s key =>
    match root with
    | .ref a =>
      match h.lookupA a with
      | some (.obj entries) =>
        match entries.lookup key with
        | some child => normalizeJ child h
        | none => none
      | _ => none
    | _ => none
  | .i n =>
    match root with
    | .ref a =>
      match h.lookupA a with
      | some (.arr elems) =>
        match elems.get? n with
        | some child => normalizeJ child h
        | none => none
      | _ => none
    | _ => none

/-- JavaScript object assignment on the heap model. -/
def objInsertJ (entries : List (String × JVal)) (k : String) (v : JVal) :
    List (String × JVal) :=
  match entries with
  | [] => [(k, v)]
  | (k', v') :: rest =>
    if k' = k then (k', v) :: rest else (k', v') :: objInsertJ rest k v

/-- `set` of `value.ts`: mirrors `get`'s checks (objects may gain keys,
arrays may not grow), normalizes the payload, and mutates the
receiver's own node in place. -/
def setJ (root : JVal) (k : JKey) (payload : JVal) (h : Heap) : Option Heap :=
  match k with
  | .s key =>
    match root with
    | .ref a =>
      match h.lookupA a with
      | some (.obj entries) => do
        let r ← normalizeJ payload h
        some (r.2.write a (.obj (objInsertJ entries key r.1)))
      | _ => none
    | _ => none
  | .i n =>
    match root with
    | .ref a =>
      match h.lookupA a with
      | some (.arr elems) =>
        if n < elems.length then do
          let r ← normalizeJ payload h
          some (r.2.write a (.arr (elems.set n r.1)))
        else none
      | _ => none
    | _ => none

/-- Read the pure `Value` tree reachable from a `JVal` (observer used to
state that a mutation did not change the original). -/
def readbackListWith (rb : JVal → Option Value) :
    List JVal → Option (List Value)
  | [] => some []
  | v :: rest => do
    let t ← rb v
    let ts ← readbackListWith rb rest
    some (t :: ts)

/-- Entry version of `readbackListWith`. -/
def readbackEntriesWith (rb : JVal → Option Value) :
    List (String × JVal) → Option (List (String × Value))
  | [] => some []
  | (k, v) :: rest => do
    let t ← rb v
    let ts ← readbackEntriesWith rb rest
    some ((k, t) :: ts)

/-- Fuelled readback of the tree below a value. -/
def readbackF : Nat → JVal → Heap → Option Value
  | 0, _, _ => none
  | fuel + 1, v, h =>
    match v with
    | .null => some .null
    | .bool b => some (.bool b)
    | .num m e => some (.num m e)
    | .str s => some (.str s)
    | .ref a =>
      match h.lookupA a with
      | some (.arr elems) =>
        (readbackListWith (fun w => readbackF fuel w h) elems).map .arr
      | some (.obj entries) =>
        (readbackEntriesWith (fun w => readbackF fuel w h) entries).map .obj
      | none => none

/-- A value's references point into the heap. -/
def valOkB (h : Heap) : JVal → Bool
  | .ref a => (h.lookupA a).isSome
  | _ => true

/-- A node's children point into the heap. -/
def nodeOkB (h : Heap) : JNode → Bool
  | .arr elems => elems.all (valOkB h)
  | .obj entries => entries.all (fun kv => valOkB h kv.2)

/-- Well-formed heap: closed (all stored references point into the
heap) and bounded (all addresses are below the allocation counter). -/
def heapWF (h : Heap) : Bool :=
  h.mem.all (fun p => nodeOkB h p.2) && h.mem.all (fun p => decide (p.1 < h.next))

/-- Heap agreement on the old addresses. -/
def agreeOn (h h' : Heap) : Prop :=
  ∀ a, (h.lookupA a).isSome = true → h'.lookupA a = h.lookupA a

/-!
## Theorems for the claims
-/

theorem unescapeGo_escChar (c : Char) (rest : List Char) :
    unescapeGo false (escChar c ++ rest) = c :: unescapeGo false rest := by
  unfold escChar
  split_ifs with h1 h2 h3 h4 h5 h6 h7 h8 h9
  · subst h1; rfl
  · subst h2; rfl
  · subst h3; rfl
  · subst h4; rfl
  · subst h5; rfl
  · subst h6; rfl
  · subst h7; rfl
  · subst h8; rfl
  · subst h9; rfl
  · show unescapeGo false (c :: rest) = c :: unescapeGo false rest
    simp only [unescapeGo, if_neg h6]

theorem unescapeL_escapeL (s : List Char) : unescapeL (escapeL s) = s := by
  induction s with
  | nil => rfl
  | cons c cs ih =>
    show unescapeGo false (escChar c ++ escapeL cs) = c :: cs
    rw [unescapeGo_escChar]
    exact congrArg (c :: ·) ih

/-- C3: for every string `s`, `unescape (escape s) = s`: the generator's
escaping (backslash before `(`, `)`, `[`, `]`, `,`, backslash, and the
two-character forms of newline, tab, carriage return) is exactly
inverted by the parser's unescape table. -/
theorem escape_unescape_roundtrip (s : String) : unescape (escape s) = s := by
  show (unescapeL (escapeL s.data).asString.data).asString = s
  have h : (escapeL s.data).asString.data = escapeL s.data := rfl
  rw [h, unescapeL_escapeL]
  cases s
  rfl

theorem sortKeys_eq_iff_perm (l₁ l₂ : List String) :
    sortKeys l₁ = sortKeys l₂ ↔ l₁.Perm l₂ := by
  constructor
  · intro h
    have p1 := List.perm_insertionSort keyLe l₁
    have p2 := List.perm_insertionSort keyLe l₂
    unfold sortKeys at h
    rw [h] at p1
    exact p1.symm.trans p2
  · intro h
    exact List.eq_of_perm_of_sorted
      ((List.perm_insertionSort keyLe l₁).trans
        (h.trans (List.perm_insertionSort keyLe l₂).symm))
      (List.sorted_insertionSort keyLe l₁)
      (List.sorted_insertionSort keyLe l₂)


/-- C1: the spec's round-trip property `parse (generate v) = v` (here
for values whose arrays-of-objects are uniform, and for heterogeneous
arrays of objects via the literal form) is broken by the code itself:
the generator renders a bare top-level array in the literal form
`:[...]`, which the parser reads back as a header whose field list is
the bracketed text and whose section has no data lines, yielding the
empty array.  Both the uniform case `[1]` and the heterogeneous
objects case `[{a:1},{b:2}]` fail. -/
theorem roundtrip_fails_at_top_level_literal_arrays :
    (generate (.arr [.num 1 0]) = ":[1]" ∧
     parse ":[1]" = .ok (.arr []) ∧
     Value.arr [] ≠ Value.arr [.num 1 0]) ∧
    (generate (.arr [.obj [("a", .num 1 0)], .obj [("b", .num 2 0)]]) =
       ":[(a:1),(b:2)]" ∧
     parse ":[(a:1),(b:2)]" = .ok (.arr [])) := by
  refine ⟨⟨?_, rfl, by simp⟩, ?_, rfl⟩
  · have h1 : generateOrt (.arr [.num 1 0]) =
        ":" ++ generateArrayContent [.num 1 0] false := by
      simp [generateOrt, isUniformObjectArray, isObjVal]
    have h2 : generateArrayContent [.num 1 0] false = "[1]" := by
      simp [generateArrayContent, generateValueEach, generateValue, numToString]
      rfl
    show generateOrt (.arr [.num 1 0]) = ":[1]"
    rw [h1, h2]
    rfl
  · have h1 : generateOrt (.arr [.obj [("a", .num 1 0)], .obj [("b", .num 2 0)]]) =
        ":" ++ generateArrayContent [.obj [("a", .num 1 0)], .obj [("b", .num 2 0)]] false := by
      simp [generateOrt, isUniformObjectArray, isObjVal, sortKeys, keysOf,
        List.insertionSort]
    have h2 : generateArrayContent [.obj [("a", .num 1 0)], .obj [("b", .num 2 0)]] false =
        "[(a:1),(b:2)]" := by
      simp [generateArrayContent, generateValueEach, generateValue,
        generateInlineObject, generatePairEach, numToString]
      rfl
    show generateOrt _ = _
    rw [h1, h2]
    rfl

/-- C5: a non-blank, non-comment line with no colon does not abort the
parse: `parseOrt` silently skips it (here `hello` is skipped and the
following section is still parsed), contradicting the claim that such a
line is a fatal malformed header and is never silently skipped. -/
theorem no_colon_line_skipped_cx :
    parse "hello\nk:\n5" = .ok (.obj [("k", .num 5 0)]) ∧
    parse "hello" = .ok (.obj []) :=
  ⟨rfl, rfl⟩

/-- C5 (amended): a non-blank, non-comment line whose trimmed text
contains no colon is never treated as a header: the top-level loop of
`parseOrt` skips it and continues with the next line, raising no error
(the no-colon error inside `parseHeader` is unreachable from
`parseOrt`, which calls it only on lines containing a colon). -/
theorem no_colon_line_skipped (l : List Char) (rest : List (List Char))
    (fuel idx : Nat) (acc : List (String × Value))
    (h1 : ¬ trim l = []) (h2 : ¬ (trim l).head? = some '#')
    (h3 : ':' ∉ trim l) :
    parseLoop (fuel + 1) (l :: rest) idx acc = parseLoop fuel rest (idx + 1) acc := by
  simp [parseLoop, h1, h2, h3]

/-- C5 (amended) witness. -/
theorem no_colon_line_skipped_witness :
    (¬ trim "hello".data = []) ∧
    parseLoop 3 ["hello".data, "k".data] 0 [] = parseLoop 2 ["k".data] 1 [] :=
  ⟨by decide, no_colon_line_skipped "hello".data ["k".data] 2 0 []
    (by decide) (by decide) (by decide)⟩

/-- C8: the claim that every data line of a `key:` section after the
first is never consulted fails: the loop advances by the count of
non-blank, non-comment data lines, so when blank or comment lines are
interleaved the scan resumes inside the section, and a later ignored
data line that contains a colon (here `x:y:z`) is re-parsed as a new
section.  The spec (and its design note on the single-line contract)
is the evident intent; the raw `dataLines + 1` line advance is the
slip. -/
theorem ignored_data_line_reparsed :
    parse "k:\n\n5\nx:y:z" = .ok (.obj [("k", .num 5 0), ("x", .arr [])]) ∧
    Value.obj [("k", .num 5 0), ("x", .arr [])] ≠ Value.obj [("k", .num 5 0)] :=
  ⟨rfl, by simp⟩

/-- C6: an array is rendered in the tabular form iff it is non-empty,
every element is a non-array object, and all elements share the first
element's key set up to order (the sorted-keys comparison of the code
equals permutation of key lists): `isUniformObjectArray` is exactly
that predicate, and both the named single-key form and the top-level
array form of `generateOrt` choose tabular rendering iff it holds,
falling back to the bracketed literal list otherwise. -/
theorem uniform_object_array_iff :
    (isUniformObjectArray [] = false) ∧
    (∀ (x : Value) (rest : List Value),
      isUniformObjectArray (x :: rest) = true ↔
        (isObjVal x = true ∧
          ∀ v ∈ rest, isObjVal v = true ∧ (keysOf v).Perm (keysOf x))) ∧
    (∀ (key : String) (arr : List Value), arr ≠ [] →
      generateOrt (.obj [(key, .arr arr)]) =
        if isUniformObjectArray arr then generateObjectArray key arr
        else generateSimpleArray key arr) ∧
    (∀ arr : List Value,
      generateOrt (.arr arr) =
        if isUniformObjectArray arr then generateTopLevelObjectArray arr
        else ":" ++ generateArrayContent arr false) := by
  refine ⟨rfl, ?_, ?_, ?_⟩
  · intro x rest
    simp [isUniformObjectArray, List.all_eq_true, sortKeys_eq_iff_perm]
  · intro key arr h
    cases arr with
    | nil => exact absurd rfl h
    | cons x xs => simp [generateOrt]
  · intro arr
    simp [generateOrt]

/-- C6 witness: a one-element array of objects is uniform, and the
named form renders it tabularly. -/
theorem uniform_object_array_iff_witness :
    ([Value.obj [("a", Value.null)]] ≠ ([] : List Value)) ∧
    generateOrt (.obj [("k", .arr [.obj [("a", .null)]])]) =
      generateObjectArray "k" [.obj [("a", .null)]] := by
  have h := uniform_object_array_iff.2.2.1 "k" [Value.obj [("a", Value.null)]]
    (by simp)
  refine ⟨by simp, ?_⟩
  rw [h]
  have hu : isUniformObjectArray [Value.obj [("a", Value.null)]] = true := by decide
  rw [if_pos hu]

theorem parseDataValuesGo_length :
    ∀ (s : List Char) (e : Bool) (d b : Int) (cur : List Char)
      (vs : List (List Char)),
      (parseDataValuesGo e d b cur vs s).length =
        vs.length + 1 + specCommaCountGo (e, d, b) s := by
  intro s
  induction s with
  | nil =>
    intro e d b cur vs
    cases e <;> simp [parseDataValuesGo, specCommaCountGo]
  | cons c cs ih =>
    intro e d b cur vs
    cases e with
    | true =>
      simp [parseDataValuesGo, specCommaCountGo, specSplitStep, ih]
    | false =>
      by_cases h1 : c = '\\'
      · subst h1; simp [parseDataValuesGo, specCommaCountGo, specSplitStep, ih]
      · by_cases h2 : c = '('
        · subst h2; simp [parseDataValuesGo, specCommaCountGo, specSplitStep, ih]
        · by_cases h3 : c = ')'
          · subst h3; simp [parseDataValuesGo, specCommaCountGo, specSplitStep, ih]
          · by_cases h4 : c = '['
            · subst h4; simp [parseDataValuesGo, specCommaCountGo, specSplitStep, ih]
            · by_cases h5 : c = ']'
              · subst h5
                simp [parseDataValuesGo, specCommaCountGo, specSplitStep, ih]
              · by_cases h6 : c = ','
                · subst h6
                  by_cases h7 : d = 0 ∧ b = 0
                  · obtain ⟨hd, hb⟩ := h7
                    subst hd; subst hb
                    simp [parseDataValuesGo, specCommaCountGo, specSplitStep, ih]
                    omega
                  · simp [parseDataValuesGo, specCommaCountGo, specSplitStep,
                      ih, h7]
                · simp [parseDataValuesGo, specCommaCountGo, specSplitStep,
                    ih, h1, h2, h3, h4, h5, h6]

theorem parseDataValuesGo_acc :
    ∀ (s : List Char) (e : Bool) (d b : Int) (cur : List Char)
      (vs : List (List Char)),
      parseDataValuesGo e d b cur vs s = vs ++ parseDataValuesGo e d b cur [] s := by
  intro s
  induction s with
  | nil =>
    intro e d b cur vs
    cases e <;> simp [parseDataValuesGo]
  | cons c cs ih =>
    intro e d b cur vs
    cases e with
    | true =>
      simp only [parseDataValuesGo]
      exact ih false d b (cur ++ [c]) vs
    | false =>
      simp only [parseDataValuesGo]
      split_ifs with h1 h2 h3 h4 h5 h6 h7
      · exact ih true d b (cur ++ [c]) vs
      · exact ih false (d + 1) b (cur ++ [c]) vs
      · exact ih false (d - 1) b (cur ++ [c]) vs
      · exact ih false d (b + 1) (cur ++ [c]) vs
      · exact ih false d (b - 1) (cur ++ [c]) vs
      · simp only [List.nil_append]
        rw [ih false d b [] (vs ++ [cur]), ih false d b [] [cur]]
        simp
      · exact ih false d b (cur ++ [c]) vs
      · exact ih false d b (cur ++ [c]) vs

theorem parseDataValuesGo_split :
    ∀ (u : List Char) (e : Bool) (d b : Int) (cur : List Char)
      (vs : List (List Char)) (v : List Char),
      List.foldl specSplitStep (e, d, b) u = (false, 0, 0) →
      parseDataValuesGo e d b cur vs (u ++ ',' :: v) =
        parseDataValuesGo false 0 0 [] (parseDataValuesGo e d b cur vs u) v := by
  intro u
  induction u with
  | nil =>
    intro e d b cur vs v h
    simp only [List.foldl_nil, Prod.mk.injEq] at h
    obtain ⟨he, hd, hb⟩ := h
    subst he; subst hd; subst hb
    simp [parseDataValuesGo]
  | cons c u ih =>
    intro e d b cur vs v h
    simp only [List.foldl_cons] at h
    cases e with
    | true =>
      simp only [parseDataValuesGo]
      simp only [specSplitStep, if_pos] at h
      exact ih false d b (cur ++ [c]) vs v h
    | false =>
      simp only [parseDataValuesGo]
      simp only [specSplitStep] at h
      simp only [Bool.false_eq_true, if_false] at h
      split_ifs with h1 h2 h3 h4 h5 h6 h7
      · rw [if_pos h1] at h
        exact ih true d b (cur ++ [c]) vs v h
      · rw [if_neg h1, if_pos h2] at h
        exact ih false (d + 1) b (cur ++ [c]) vs v h
      · rw [if_neg h1, if_neg h2, if_pos h3] at h
        exact ih false (d - 1) b (cur ++ [c]) vs v h
      · rw [if_neg h1, if_neg h2, if_neg h3, if_pos h4] at h
        exact ih false d (b + 1) (cur ++ [c]) vs v h
      · rw [if_neg h1, if_neg h2, if_neg h3, if_neg h4, if_pos h5] at h
        exact ih false d (b - 1) (cur ++ [c]) vs v h
      · rw [if_neg h1, if_neg h2, if_neg h3, if_neg h4, if_neg h5] at h
        exact ih false d b [] (vs ++ [cur]) v h
      · rw [if_neg h1, if_neg h2, if_neg h3, if_neg h4, if_neg h5] at h
        exact ih false d b (cur ++ [c]) vs v h
      · rw [if_neg h1, if_neg h2, if_neg h3, if_neg h4, if_neg h5] at h
        exact ih false d b (cur ++ [c]) vs v h

theorem parseDataValuesGo_ne_nil (s : List Char) (e : Bool) (d b : Int)
    (cur : List Char) (vs : List (List Char)) :
    parseDataValuesGo e d b cur vs s ≠ [] := by
  intro h
  have hl := parseDataValuesGo_length s e d b cur vs
  rw [h] at hl
  simp only [List.length_nil] at hl
  omega

theorem endTrim_append :
    ∀ (xs ys : List (List Char)), ys ≠ [] →
      endTrim (xs ++ ys) = xs ++ endTrim ys := by
  intro xs
  induction xs with
  | nil => intro ys hy; simp
  | cons x xs ih =>
    intro ys hy
    cases hxy : xs ++ ys with
    | nil =>
      rcases List.append_eq_nil.mp hxy with ⟨_, h2⟩
      exact absurd h2 hy
    | cons z zs =>
      show endTrim (x :: (xs ++ ys)) = (x :: xs) ++ endTrim ys
      rw [hxy]
      show x :: endTrim (z :: zs) = (x :: xs) ++ endTrim ys
      rw [← hxy, ih ys hy]
      rfl

theorem splitPairsGo_rel :
    ∀ (s : List Char) (e : Bool) (d b : Int) (cur : List Char)
      (ps : List (List Char)),
      splitPairsGo e d b cur ps s =
        ps ++ endTrim (parseDataValuesGo e d b cur [] s) := by
  intro s
  induction s with
  | nil =>
    intro e d b cur ps
    have h1 : splitPairsGo e d b cur ps [] =
        (if trim cur = [] then ps else ps ++ [trim cur]) := by
      cases e <;> rfl
    have h2 : parseDataValuesGo e d b cur ([] : List (List Char)) [] = [cur] := by
      cases e <;> rfl
    rw [h1, h2]
    simp only [endTrim]
    split_ifs <;> simp
  | cons c cs ih =>
    intro e d b cur ps
    cases e with
    | true =>
      simp only [splitPairsGo, parseDataValuesGo]
      exact ih false d b (cur ++ [c]) ps
    | false =>
      simp only [splitPairsGo, parseDataValuesGo]
      split_ifs with h1 h2 h3 h4 h5 h6 h7
      · exact ih true d b (cur ++ [c]) ps
      · exact ih false (d + 1) b (cur ++ [c]) ps
      · exact ih false (d - 1) b (cur ++ [c]) ps
      · exact ih false d (b + 1) (cur ++ [c]) ps
      · exact ih false d (b - 1) (cur ++ [c]) ps
      · simp only [List.nil_append]
        rw [ih false d b [] (ps ++ [cur])]
        rw [parseDataValuesGo_acc cs false d b [] [cur]]
        rw [endTrim_append [cur] (parseDataValuesGo false d b [] [] cs)
          (parseDataValuesGo_ne_nil cs false d b [] [])]
        simp
      · exact ih false d b (cur ++ [c]) ps
      · exact ih false d b (cur ++ [c]) ps

theorem parseArrayGo_rel (pv : List Char → Value) :
    ∀ (s : List Char) (e : Bool) (d b : Int) (cur : List Char)
      (res : List Value),
      parseArrayGo pv e d b cur res s =
        res ++ (endTrim (parseDataValuesGo e d b cur [] s)).map pv := by
  intro s
  induction s with
  | nil =>
    intro e d b cur res
    have h1 : parseArrayGo pv e d b cur res [] =
        (if trim cur = [] then res else res ++ [pv (trim cur)]) := by
      cases e <;> rfl
    have h2 : parseDataValuesGo e d b cur ([] : List (List Char)) [] = [cur] := by
      cases e <;> rfl
    rw [h1, h2]
    simp only [endTrim]
    split_ifs <;> simp
  | cons c cs ih =>
    intro e d b cur res
    cases e with
    | true =>
      simp only [parseArrayGo, parseDataValuesGo]
      exact ih false d b (cur ++ [c]) res
    | false =>
      simp only [parseArrayGo, parseDataValuesGo]
      split_ifs with h1 h2 h3 h4 h5 h6 h7
      · exact ih true d b (cur ++ [c]) res
      · exact ih false (d + 1) b (cur ++ [c]) res
      · exact ih false (d - 1) b (cur ++ [c]) res
      · exact ih false d (b + 1) (cur ++ [c]) res
      · exact ih false d (b - 1) (cur ++ [c]) res
      · simp only [List.nil_append]
        rw [ih false d b [] (res ++ [pv cur])]
        rw [parseDataValuesGo_acc cs false d b [] [cur]]
        rw [endTrim_append [cur] (parseDataValuesGo false d b [] [] cs)
          (parseDataValuesGo_ne_nil cs false d b [] [])]
        simp
      · exact ih false d b (cur ++ [c]) res
      · exact ih false d b (cur ++ [c]) res


/-- C7: splitting on commas is depth-aware with two independent
counters and a one-character escape, for data lines and for inline
collection bodies alike.  (1) The number of pieces `parseDataValues`
produces is one more than the number of top-level commas — an
unescaped comma with both the paren and the bracket counter at zero —
so a comma inside an unescaped `(...)` or `[...]` group, or a comma
preceded by a backslash, never produces a split.  (2) A comma at a
top-level scan state does split, with the two sides split
independently.  (3) `splitPairs` (inline-object bodies) produces
exactly the same top-level-comma pieces, with only the final piece
trimmed and dropped when blank, so its splits too are governed by the
same two counters and escape.  (4) The corresponding split law for
`splitPairs` at a top-level comma.  (5) `parseArray` (array bodies)
parses exactly these same pieces, final piece trimmed and dropped when
blank.  (6) The corresponding split law for the `parseArray` scan at a
top-level comma. -/
theorem depth_aware_splitting :
    (∀ s : List Char,
      (parseDataValues s).length = specTopLevelCommaCount s + 1) ∧
    (∀ u v : List Char,
      List.foldl specSplitStep (false, 0, 0) u = (false, 0, 0) →
      parseDataValues (u ++ ',' :: v) =
        parseDataValues u ++ parseDataValues v) ∧
    (∀ s : List Char, splitPairs s = endTrim (parseDataValues s)) ∧
    (∀ u v : List Char,
      List.foldl specSplitStep (false, 0, 0) u = (false, 0, 0) →
      splitPairs (u ++ ',' :: v) = parseDataValues u ++ splitPairs v) ∧
    (∀ (pv : List Char → Value) (s : List Char), trim s ≠ [] →
      parseArrayWith pv s =
        .arr ((endTrim (parseDataValues s)).map pv)) ∧
    (∀ (pv : List Char → Value) (u v : List Char),
      List.foldl specSplitStep (false, 0, 0) u = (false, 0, 0) →
      parseArrayGo pv false 0 0 [] [] (u ++ ',' :: v) =
        (parseDataValues u).map pv ++
          parseArrayGo pv false 0 0 [] [] v) := by
  have hsplit : ∀ u v : List Char,
      List.foldl specSplitStep (false, 0, 0) u = (false, 0, 0) →
      parseDataValues (u ++ ',' :: v) =
        parseDataValues u ++ parseDataValues v := by
    intro u v h
    show parseDataValuesGo false 0 0 [] [] (u ++ ',' :: v) = _
    rw [parseDataValuesGo_split u false 0 0 [] [] v h]
    rw [parseDataValuesGo_acc v false 0 0 []
      (parseDataValuesGo false 0 0 [] [] u)]
    rfl
  have hrel : ∀ s : List Char,
      splitPairs s = endTrim (parseDataValues s) := by
    intro s
    show splitPairsGo false 0 0 [] [] s = _
    rw [splitPairsGo_rel s false 0 0 [] []]
    rfl
  have harr : ∀ (pv : List Char → Value) (s : List Char),
      parseArrayGo pv false 0 0 [] [] s =
        (endTrim (parseDataValues s)).map pv := by
    intro pv s
    rw [parseArrayGo_rel pv s false 0 0 [] []]
    rfl
  refine ⟨?_, hsplit, hrel, ?_, ?_, ?_⟩
  · intro s
    have h := parseDataValuesGo_length s false 0 0 [] []
    simp only [List.length_nil, Nat.zero_add] at h
    simp only [parseDataValues, specTopLevelCommaCount]
    omega
  · intro u v h
    have hne : parseDataValues v ≠ [] :=
      parseDataValuesGo_ne_nil v false 0 0 [] []
    rw [hrel (u ++ ',' :: v), hsplit u v h,
      endTrim_append (parseDataValues u) (parseDataValues v) hne, hrel v]
  · intro pv s hs
    simp only [parseArrayWith, if_neg hs]
    rw [harr]
  · intro pv u v h
    have hne : parseDataValues v ≠ [] :=
      parseDataValuesGo_ne_nil v false 0 0 [] []
    rw [harr pv (u ++ ',' :: v), hsplit u v h,
      endTrim_append (parseDataValues u) (parseDataValues v) hne,
      List.map_append, harr pv v]

/-- C7 witness: the comma inside `(x,y)` does not split, the top-level
comma after it does, for the data-line splitter, the inline-object
splitter and the array scanner alike. -/
theorem depth_aware_splitting_witness :
    (List.foldl specSplitStep (false, 0, 0) "(x,y)".data = (false, 0, 0)) ∧
    parseDataValues ("(x,y)".data ++ ',' :: "z".data) =
      parseDataValues "(x,y)".data ++ parseDataValues "z".data ∧
    splitPairs ("a:1".data ++ ',' :: "b:[2,3]".data) =
      parseDataValues "a:1".data ++ splitPairs "b:[2,3]".data ∧
    (trim "1, (2,3)".data ≠ []) ∧
    parseArrayWith (fun u => Value.str u.asString) "1, (2,3)".data =
      .arr ((endTrim (parseDataValues "1, (2,3)".data)).map
        (fun u => Value.str u.asString)) ∧
    parseArrayGo (fun u => Value.str u.asString) false 0 0 [] []
        ("(x,y)".data ++ ',' :: "z".data) =
      (parseDataValues "(x,y)".data).map (fun u => Value.str u.asString) ++
        parseArrayGo (fun u => Value.str u.asString) false 0 0 [] [] "z".data :=
  ⟨by decide,
    depth_aware_splitting.2.1 "(x,y)".data "z".data (by decide),
    depth_aware_splitting.2.2.2.1 "a:1".data "b:[2,3]".data (by decide),
    by decide,
    depth_aware_splitting.2.2.2.2.1 (fun u => Value.str u.asString)
      "1, (2,3)".data (by decide),
    depth_aware_splitting.2.2.2.2.2 (fun u => Value.str u.asString)
      "(x,y)".data "z".data (by decide)⟩

/-- C4 (counterexample): the arity-mismatch errors do not carry the
raw (untrimmed) offending line, in either the top-level or the nested
tuple case.  For the input `k:a,b:\n 1` the offending raw line is
`" 1"`, but the error carries the trimmed text `"1"`; for the
nested-tuple input `k:p(x,y):\n (1)` the offending raw line is
`" (1)"`, but the "nested values" error carries the trimmed text
`"(1)"`: `parseDataLines` trims the line before splitting and passes
the trimmed text down to both errors. -/
theorem arity_error_line_not_raw :
    (parse "k:a,b:\n 1" = .error ⟨2, "1", "Expected 2 values but got 1"⟩ ∧
      ("1" : String) ≠ " 1") ∧
    (parse "k:p(x,y):\n (1)" =
        .error ⟨2, "(1)", "Expected 2 nested values but got 1"⟩ ∧
      ("(1)" : String) ≠ " (1)") :=
  ⟨⟨rfl, by decide⟩, rfl, by decide⟩

theorem parseDataLinesGo_skip (skips : List (List Char))
    (h : ∀ l ∈ skips, trim l = [] ∨ (trim l).head? = some '#') :
    ∀ (fields : List Field) (xs : List (List Char)) (idx remaining : Nat)
      (acc : List Value),
      parseDataLinesGo fields (skips ++ xs) idx (remaining + 1) acc =
        parseDataLinesGo fields xs (idx + skips.length) (remaining + 1) acc := by
  induction skips with
  | nil => intro fields xs idx remaining acc; simp
  | cons l skips ih =>
    intro fields xs idx remaining acc
    have hl := h l (List.mem_cons_self l skips)
    have hcond : (decide (trim l = []) || decide ((trim l).head? = some '#')) = true := by
      rcases hl with h1 | h1 <;> simp [h1]
    show parseDataLinesGo fields (l :: (skips ++ xs)) idx (remaining + 1) acc = _
    rw [show parseDataLinesGo fields (l :: (skips ++ xs)) idx (remaining + 1) acc =
        parseDataLinesGo fields (skips ++ xs) (idx + 1) (remaining + 1) acc from by
      simp only [parseDataLinesGo]
      rw [if_pos hcond]]
    rw [ih (fun l hl => h l (List.mem_cons_of_mem _ hl)) fields xs (idx + 1) remaining acc]
    have harith : idx + 1 + skips.length = idx + (skips.length + 1) := by omega
    simp only [List.length_cons, harith]

/-- C4 (amended): an arity mismatch — of a data row's top-level value
count against the section's field count, or of a nested `(...)`
tuple's value count against its nested field count — makes the parse
fail with an error that states the expected and actual counts, carries
the 1-based source line number, and carries the trimmed (not the raw)
offending line text; no partial document is returned.  Conjunct 1: the
top-level mismatch errors at any position of the data-line loop.
Conjunct 2: the document-level failure, for a named tabular section
whose offending row is its first data row after any blank or comment
lines.  Conjunct 3: a nested field whose parenthesized tuple splits
into the wrong number of values yields the "Expected N nested values"
error carrying the line text it was handed.  Conjunct 4: any error
raised while building a row's record — in particular the nested arity
error, which is handed the trimmed line — aborts the data-line loop
with exactly that error. -/
theorem arity_mismatch_reports_trimmed_line
    (hdr : List Char) (skips : List (List Char)) (bad : List Char)
    (rest : List (List Char)) (key : String) (fields : List Field) (n : Nat)
    (hcolon : ':' ∈ trim hdr)
    (hcom : ¬ (trim hdr).head? = some '#')
    (hsec : parseSection hdr (skips ++ bad :: rest) 1 = .ok (some key, fields, n))
    (hskips : ∀ l ∈ skips, trim l = [] ∨ (trim l).head? = some '#')
    (hbad1 : ¬ trim bad = []) (hbad2 : ¬ (trim bad).head? = some '#')
    (hn : n ≠ 0)
    (hfne : fields ≠ [])
    (hmm : (parseDataValues (trim bad)).length ≠ fields.length) :
    (∀ (idx k : Nat) (acc : List Value),
      parseDataLinesGo fields (bad :: rest) idx (k + 1) acc =
        .error ⟨idx + 1, (trim bad).asString,
          "Expected " ++ toString fields.length ++ " values but got " ++
            toString (parseDataValues (trim bad)).length⟩) ∧
    parseLines (hdr :: (skips ++ bad :: rest)) =
      .error ⟨skips.length + 2, (trim bad).asString,
        "Expected " ++ toString fields.length ++ " values but got " ++
          toString (parseDataValues (trim bad)).length⟩ ∧
    (∀ (nm : String) (sf : List Field) (valueStr ln : List Char)
      (lineNum : Nat),
      sf ≠ [] →
      (trim valueStr).head? = some '(' →
      (trim valueStr).getLast? = some ')' →
      trim valueStr ≠ ['(', ')'] →
      (parseDataValues ((trim valueStr).drop 1).dropLast).length ≠
        sf.length →
      parseFieldValue (Field.mk nm sf) valueStr ln lineNum =
        .error ⟨lineNum, ln.asString,
          "Expected " ++ toString sf.length ++ " nested values but got " ++
            toString
              (parseDataValues ((trim valueStr).drop 1).dropLast).length⟩) ∧
    (∀ (fs : List Field) (row : List Char) (tl : List (List Char))
      (idx k : Nat) (acc : List Value) (e : OrtParseError),
      ¬ trim row = [] → ¬ (trim row).head? = some '#' →
      fs ≠ [] →
      (parseDataValues (trim row)).length = fs.length →
      buildObjWith
        (fun f v => parseFieldValue f v (trim row) (idx + 1))
        (fs.zip (parseDataValues (trim row))) [] = .error e →
      parseDataLinesGo fs (row :: tl) idx (k + 1) acc = .error e) := by
  have hnested : ∀ (nm : String) (sf : List Field) (valueStr ln : List Char)
      (lineNum : Nat),
      sf ≠ [] →
      (trim valueStr).head? = some '(' →
      (trim valueStr).getLast? = some ')' →
      trim valueStr ≠ ['(', ')'] →
      (parseDataValues ((trim valueStr).drop 1).dropLast).length ≠
        sf.length →
      parseFieldValue (Field.mk nm sf) valueStr ln lineNum =
        .error ⟨lineNum, ln.asString,
          "Expected " ++ toString sf.length ++ " nested values but got " ++
            toString
              (parseDataValues ((trim valueStr).drop 1).dropLast).length⟩ := by
    intro nm sf valueStr ln lineNum hsf hh hl hne2 hmm2
    have htne : ¬ trim valueStr = [] := by
      intro he; rw [he] at hh; exact Option.noConfusion hh
    have hin : isNestedField (Field.mk nm sf) = true := by
      simp [isNestedField, Field.nestedFields, List.isEmpty_iff, hsf]
    show parseFieldValueF (valueStr.length + 1) _ _ _ _ = _
    simp only [parseFieldValueF, Field.nestedFields, hin, Bool.not_true,
      Bool.false_eq_true, if_false]
    rw [if_neg htne, if_neg hne2]
    rw [if_neg (by
      intro hc
      rw [hh] at hc
      exact absurd (Option.some.inj hc.1) (by decide))]
    rw [if_neg (not_not_intro ⟨hh, hl⟩)]
    rw [if_pos hmm2]
  have hprop : ∀ (fs : List Field) (row : List Char) (tl : List (List Char))
      (idx k : Nat) (acc : List Value) (e : OrtParseError),
      ¬ trim row = [] → ¬ (trim row).head? = some '#' →
      fs ≠ [] →
      (parseDataValues (trim row)).length = fs.length →
      buildObjWith
        (fun f v => parseFieldValue f v (trim row) (idx + 1))
        (fs.zip (parseDataValues (trim row))) [] = .error e →
      parseDataLinesGo fs (row :: tl) idx (k + 1) acc = .error e := by
    intro fs row tl idx k acc e hb1 hb2 hf2 hlen hbuild
    simp only [parseDataLinesGo]
    rw [if_neg (by simp [hb1, hb2])]
    rw [if_neg (by simp [List.isEmpty_iff, hf2])]
    rw [if_neg (not_not_intro hlen)]
    rw [hbuild]
    rfl
  have hrow : ∀ (idx k : Nat) (acc : List Value),
      parseDataLinesGo fields (bad :: rest) idx (k + 1) acc =
        .error ⟨idx + 1, (trim bad).asString,
          "Expected " ++ toString fields.length ++ " values but got " ++
            toString (parseDataValues (trim bad)).length⟩ := by
    intro idx k acc
    simp only [parseDataLinesGo]
    rw [if_neg (by simp [hbad1, hbad2])]
    rw [if_neg (by simp [List.isEmpty_iff, hfne])]
    rw [if_pos hmm]
  refine ⟨hrow, ?_, hnested, hprop⟩
  have hne : ¬ trim hdr = [] := by
    intro he
    rw [he] at hcolon
    exact absurd hcolon (List.not_mem_nil ':')
  obtain ⟨m, rfl⟩ : ∃ m, n = m + 1 := ⟨n - 1, by omega⟩
  show parseLoop _ _ 0 [] = _
  simp only [List.length_cons]
  rw [show (skips ++ bad :: rest).length + 1 + 1 =
      ((skips ++ bad :: rest).length + 1) + 1 from rfl]
  simp only [parseLoop]
  rw [if_neg (by simp [hne, hcom]), if_pos (by simp [hcolon])]
  rw [hsec]
  show (do
    let values ← parseDataLines (skips ++ bad :: rest) 1 fields (m + 1)
    parseLoop _ _ _ (objInsert [] key values)) = _
  rw [show parseDataLines (skips ++ bad :: rest) 1 fields (m + 1) =
      parseDataLinesGo fields (skips ++ bad :: rest) 1 (m + 1) [] from rfl]
  rw [parseDataLinesGo_skip skips hskips fields (bad :: rest) 1 m []]
  have hstep := hrow (1 + skips.length) m []
  have harith : 1 + skips.length + 1 = skips.length + 2 := by omega
  rw [harith] at hstep
  rw [hstep]
  rfl

/-- C4 (amended) witness: the concrete mismatching row `" 1"` under the
header `k:a,b:`, and the concrete mismatching nested tuple `(1)` under
a field `p(x,y)` declaring two nested sub-fields. -/
theorem arity_mismatch_reports_trimmed_line_witness :
    (parseSection "k:a,b:".data [" 1".data] 1 =
      .ok (some "k", [Field.mk "a" [], Field.mk "b" []], 1)) ∧
    parseLines ["k:a,b:".data, " 1".data] =
      .error ⟨2, "1", "Expected 2 values but got 1"⟩ ∧
    parseFieldValue (Field.mk "p" [Field.mk "x" [], Field.mk "y" []])
        "(1)".data "(1)".data 2 =
      .error ⟨2, "(1)", "Expected 2 nested values but got 1"⟩ ∧
    parseDataLinesGo [Field.mk "p" [Field.mk "x" [], Field.mk "y" []]]
        [" (1)".data] 1 1 [] =
      .error ⟨2, "(1)", "Expected 2 nested values but got 1"⟩ := by
  have h := arity_mismatch_reports_trimmed_line "k:a,b:".data [] " 1".data []
    "k" [Field.mk "a" [], Field.mk "b" []] 1
    (by decide) (by decide) rfl (by intro l hl; exact absurd hl (List.not_mem_nil l))
    (by decide) (by decide) (by decide) (List.cons_ne_nil _ _) (by decide)
  refine ⟨rfl, by simpa using h.2.1, ?_, ?_⟩
  · exact h.2.2.1 "p" [Field.mk "x" [], Field.mk "y" []] "(1)".data
      "(1)".data 2 (List.cons_ne_nil _ _) (by decide) (by decide)
      (by decide) (by decide)
  · exact h.2.2.2 [Field.mk "p" [Field.mk "x" [], Field.mk "y" []]]
      " (1)".data [] 1 0 [] ⟨2, "(1)", "Expected 2 nested values but got 1"⟩
      (by decide) (by decide) (List.cons_ne_nil _ _) (by decide) (by rfl)

theorem parseLoop_skip (pre : List (List Char))
    (h : ∀ l ∈ pre, trim l = [] ∨ (trim l).head? = some '#' ∨ ':' ∉ trim l) :
    ∀ (fuel : Nat) (xs : List (List Char)) (idx : Nat)
      (acc : List (String × Value)),
      parseLoop (fuel + pre.length) (pre ++ xs) idx acc =
        parseLoop fuel xs (idx + pre.length) acc := by
  induction pre with
  | nil => intro fuel xs idx acc; simp
  | cons l pre ih =>
    intro fuel xs idx acc
    have hl := h l (List.mem_cons_self l pre)
    rw [show fuel + (l :: pre).length = (fuel + pre.length) + 1 from by
      simp [List.length_cons]; omega]
    show parseLoop ((fuel + pre.length) + 1) (l :: (pre ++ xs)) idx acc = _
    rw [show parseLoop ((fuel + pre.length) + 1) (l :: (pre ++ xs)) idx acc =
        parseLoop (fuel + pre.length) (pre ++ xs) (idx + 1) acc from by
      by_cases hsk : trim l = [] ∨ (trim l).head? = some '#'
      · have hcond :
            (decide (trim l = []) || decide ((trim l).head? = some '#')) = true := by
          rcases hsk with h1 | h1 <;> simp [h1]
        simp only [parseLoop]
        rw [if_pos hcond]
      · have hnc : ':' ∉ trim l := by
          rcases hl with h1 | h1 | h1
          · exact absurd (Or.inl h1) hsk
          · exact absurd (Or.inr h1) hsk
          · exact h1
        have h1 : ¬ trim l = [] := fun he => hsk (Or.inl he)
        have h2 : ¬ (trim l).head? = some '#' := fun he => hsk (Or.inr he)
        simp [parseLoop, h1, h2, hnc]]
    rw [ih (fun l hl => h l (List.mem_cons_of_mem _ hl)) fuel xs (idx + 1) acc]
    have harith : idx + 1 + pre.length = idx + (pre.length + 1) := by omega
    simp only [List.length_cons, harith]

/-- C2: when the first header of the document (preceding lines are all
skipped: blank, comment, or colon-free) is an anonymous header
`:fields:` with a non-empty field list, the parse returns that
section's result as the whole document's result and scans no further
section: with exactly one data line the single record is returned
unwrapped, with zero or more than one an array of records is returned.
In particular `:name,age:\nAlice,30` parses to the single object
`{name: "Alice", age: 30}`. -/
theorem anonymous_section_result
    (pre : List (List Char)) (hdr : List Char) (rest : List (List Char))
    (fields : List Field)
    (hpre : ∀ l ∈ pre, trim l = [] ∨ (trim l).head? = some '#' ∨ ':' ∉ trim l)
    (hhdr : (trim hdr).head? = some ':')
    (hfields : parseFields (dropTrailingColon ((trim hdr).drop 1)) (trim hdr)
        (pre.length + 1) = .ok fields)
    (hfne : fields ≠ []) :
    (parseLines (pre ++ hdr :: rest) =
      (do
        let values ← parseDataLines rest (pre.length + 1) fields (countDataLines rest)
        if countDataLines rest = 1 then
          match values with
          | .arr [v] => Except.ok v
          | _ => Except.ok values
        else Except.ok values)) ∧
    parse ":name,age:\nAlice,30" =
      .ok (.obj [("name", .str "Alice"), ("age", .num 30 0)]) := by
  refine ⟨?_, rfl⟩
  have hne : ¬ trim hdr = [] := by
    intro he
    rw [he] at hhdr
    exact Option.noConfusion hhdr
  have hnc : ¬ (trim hdr).head? = some '#' := by
    rw [hhdr]
    intro he
    have := Option.some.inj he
    exact absurd this (by decide)
  have hmem : ':' ∈ trim hdr := by
    cases htr : trim hdr with
    | nil => exact absurd htr hne
    | cons c cs =>
      rw [htr] at hhdr
      simp only [List.head?_cons, Option.some.injEq] at hhdr
      rw [hhdr]
      exact List.mem_cons_self ':' cs
  have hsec : parseSection hdr rest (pre.length + 1) =
      .ok (none, fields, countDataLines rest) := by
    simp only [parseSection, parseHeader]
    rw [if_pos hhdr]
    simp only [bind, Except.bind]
    rw [hfields]
    rfl
  show parseLoop ((pre ++ hdr :: rest).length + 1) (pre ++ hdr :: rest) 0 [] = _
  rw [show (pre ++ hdr :: rest).length + 1 = (rest.length + 2) + pre.length from by
    simp [List.length_append, List.length_cons]; omega]
  rw [parseLoop_skip pre hpre (rest.length + 2) (hdr :: rest) 0 []]
  simp only [Nat.zero_add]
  show parseLoop ((rest.length + 1) + 1) (hdr :: rest) pre.length [] = _
  simp only [parseLoop]
  rw [if_neg (by simp [hne, hnc]), if_pos (by simp [hmem])]
  simp only [bind, Except.bind]
  rw [hsec]
  have hpos : fields.length > 0 := List.length_pos.mpr hfne
  cases hv : parseDataLines rest (pre.length + 1) fields (countDataLines rest) with
  | error e => simp [hv]
  | ok values =>
    by_cases hc : countDataLines rest = 1
    · rw [hc] at hv
      rw [hc]
      simp only [hv]
      rw [if_pos (⟨hpos, trivial⟩ : fields.length > 0 ∧ True)]
      rw [if_pos (trivial : True)]
    · have hnc2 : ¬(fields.length > 0 ∧ countDataLines rest = 1) := fun hx => hc hx.2
      simp only [hv]
      rw [if_neg hnc2, if_neg hc]

/-- C2 witness: a document with a leading comment line, an anonymous
two-field header and one data row yields the unwrapped record. -/
theorem anonymous_section_result_witness :
    ((trim ":a,b:".data).head? = some ':') ∧
    parseLines ["# c".data, "junk".data, ":a,b:".data, "1,2".data] =
      .ok (.obj [("a", .num 1 0), ("b", .num 2 0)]) := by
  refine ⟨rfl, ?_⟩
  have h := (anonymous_section_result ["# c".data, "junk".data] ":a,b:".data
    ["1,2".data] [Field.mk "a" [], Field.mk "b" []]
    (by
      intro l hl
      simp only [List.mem_cons, List.not_mem_nil, or_false] at hl
      rcases hl with h1 | h1 <;> subst h1
      · right; left; rfl
      · right; right; decide)
    rfl rfl (List.cons_ne_nil _ _)).1
  rw [show (["# c".data, "junk".data, ":a,b:".data, "1,2".data] :
      List (List Char)) =
    ["# c".data, "junk".data] ++ [":a,b:".data, "1,2".data] from rfl, h]
  rfl

theorem lookup_mem_nat :
    ∀ (l : List (Nat × JNode)) (a : Nat) (n : JNode),
      l.lookup a = some n → (a, n) ∈ l := by
  intro l
  induction l with
  | nil => intro a n h; exact Option.noConfusion h
  | cons p l ih =>
    intro a n h
    obtain ⟨pk, pn⟩ := p
    simp only [List.lookup] at h
    cases hb : (a == pk) with
    | true =>
      rw [hb] at h
      have ha : a = pk := eq_of_beq hb
      have hn : pn = n := Option.some.inj h
      rw [ha, ← hn]
      exact List.mem_cons_self (pk, pn) l
    | false =>
      rw [hb] at h
      exact List.mem_cons_of_mem (pk, pn) (ih a n h)

theorem lookup_append_isSome :
    ∀ (l xs : List (Nat × JNode)) (a : Nat),
      (l.lookup a).isSome = true → (l ++ xs).lookup a = l.lookup a := by
  intro l
  induction l with
  | nil => intro xs a h; exact absurd h (by simp [List.lookup])
  | cons p l ih =>
    intro xs a h
    obtain ⟨pk, pn⟩ := p
    simp only [List.cons_append, List.lookup]
    cases hb : (a == pk) with
    | true => rfl
    | false =>
      simp only [List.lookup, hb] at h
      exact ih xs a h

theorem agreeOn_trans {h1 h2 h3 : Heap} (p : agreeOn h1 h2) (q : agreeOn h2 h3) :
    agreeOn h1 h3 := by
  intro a ha
  have e := p a ha
  have ha2 : (h2.lookupA a).isSome = true := by rw [e]; exact ha
  rw [q a ha2, e]

theorem agreeOn_alloc (h : Heap) (n : JNode) : agreeOn h (h.alloc n).2 := by
  intro a ha
  exact lookup_append_isSome h.mem [(h.next, n)] a ha

theorem lookup_map_write :
    ∀ (l : List (Nat × JNode)) (a a' : Nat) (n : JNode), a ≠ a' →
      (l.map (fun p => if p.1 = a' then (a', n) else p)).lookup a = l.lookup a := by
  intro l
  induction l with
  | nil => intro a a' n _; rfl
  | cons p l ih =>
    intro a a' n hne
    obtain ⟨pk, pn⟩ := p
    by_cases hp : pk = a'
    · subst hp
      have hb : (a == pk) = false := beq_eq_false_iff_ne.mpr hne
      simp only [List.map_cons, if_true]
      simp only [List.lookup, hb]
      exact ih a pk n hne
    · simp only [List.map_cons]
      rw [if_neg hp]
      simp only [List.lookup]
      cases hb : (a == pk) with
      | true => rfl
      | false => exact ih a a' n hne

theorem lookupA_write_ne (h : Heap) (a' : Nat) (n : JNode) (a : Nat)
    (hne : a ≠ a') : (h.write a' n).lookupA a = h.lookupA a :=
  lookup_map_write h.mem a a' n hne

theorem bounded_lt (h : Heap) (hwf : heapWF h = true) (a : Nat)
    (ha : (h.lookupA a).isSome = true) : a < h.next := by
  obtain ⟨n, hn⟩ := Option.isSome_iff_exists.mp ha
  have hmem := lookup_mem_nat h.mem a n hn
  have hb := (Bool.and_eq_true_iff.mp hwf).2
  rw [List.all_eq_true] at hb
  have := hb (a, n) hmem
  exact of_decide_eq_true this

theorem closed_node (h : Heap) (hwf : heapWF h = true) (a : Nat) (n : JNode)
    (hn : h.lookupA a = some n) : nodeOkB h n = true := by
  have hmem := lookup_mem_nat h.mem a n hn
  have hc := (Bool.and_eq_true_iff.mp hwf).1
  rw [List.all_eq_true] at hc
  exact hc (a, n) hmem

theorem normalizeListWith_extends
    (nv : JVal → Heap → Option (JVal × Heap))
    (hnv : ∀ v h r, nv v h = some r → agreeOn h r.2 ∧ h.next ≤ r.2.next) :
    ∀ (l : List JVal) (h : Heap) (r : List JVal × Heap),
      normalizeListWith nv l h = some r → agreeOn h r.2 ∧ h.next ≤ r.2.next := by
  intro l
  induction l with
  | nil =>
    intro h r hr
    simp only [normalizeListWith] at hr
    obtain rfl := (Option.some.inj hr).symm
    exact ⟨fun a ha => rfl, Nat.le_refl _⟩
  | cons v rest ih =>
    intro h r hr
    simp only [normalizeListWith, bind, Option.bind_eq_some] at hr
    obtain ⟨r1, hv, r2, hrest, hr⟩ := hr
    obtain rfl := (Option.some.inj hr).symm
    obtain ⟨hag1, hm1⟩ := hnv v h r1 hv
    obtain ⟨hag2, hm2⟩ := ih r1.2 r2 hrest
    exact ⟨agreeOn_trans hag1 hag2, Nat.le_trans hm1 hm2⟩

theorem normalizeEntriesWith_extends
    (nv : JVal → Heap → Option (JVal × Heap))
    (hnv : ∀ v h r, nv v h = some r → agreeOn h r.2 ∧ h.next ≤ r.2.next) :
    ∀ (l : List (String × JVal)) (h : Heap) (r : List (String × JVal) × Heap),
      normalizeEntriesWith nv l h = some r → agreeOn h r.2 ∧ h.next ≤ r.2.next := by
  intro l
  induction l with
  | nil =>
    intro h r hr
    simp only [normalizeEntriesWith] at hr
    obtain rfl := (Option.some.inj hr).symm
    exact ⟨fun a ha => rfl, Nat.le_refl _⟩
  | cons kv rest ih =>
    intro h r hr
    obtain ⟨k, v⟩ := kv
    simp only [normalizeEntriesWith, bind, Option.bind_eq_some] at hr
    obtain ⟨r1, hv, r2, hrest, hr⟩ := hr
    obtain rfl := (Option.some.inj hr).symm
    obtain ⟨hag1, hm1⟩ := hnv v h r1 hv
    obtain ⟨hag2, hm2⟩ := ih r1.2 r2 hrest
    exact ⟨agreeOn_trans hag1 hag2, Nat.le_trans hm1 hm2⟩

theorem normalizeF_extends :
    ∀ (fuel : Nat) (v : JVal) (h : Heap) (r : JVal × Heap),
      normalizeF fuel v h = some r →
      (agreeOn h r.2 ∧ h.next ≤ r.2.next) ∧
        (∀ a', r.1 = .ref a' → h.next ≤ a' ∧ a' < r.2.next) := by
  intro fuel
  induction fuel with
  | zero => intro v h r hr; exact Option.noConfusion hr
  | succ fuel ih =>
    intro v h r hr
    have hnv : ∀ v h r, normalizeF fuel v h = some r →
        agreeOn h r.2 ∧ h.next ≤ r.2.next := fun v h r hx => (ih v h r hx).1
    cases v with
    | null =>
      obtain rfl := (Option.some.inj hr).symm
      exact ⟨⟨fun a ha => rfl, Nat.le_refl _⟩, fun a' ha' => JVal.noConfusion ha'⟩
    | bool b =>
      obtain rfl := (Option.some.inj hr).symm
      exact ⟨⟨fun a ha => rfl, Nat.le_refl _⟩, fun a' ha' => JVal.noConfusion ha'⟩
    | num m e =>
      obtain rfl := (Option.some.inj hr).symm
      exact ⟨⟨fun a ha => rfl, Nat.le_refl _⟩, fun a' ha' => JVal.noConfusion ha'⟩
    | str s =>
      obtain rfl := (Option.some.inj hr).symm
      exact ⟨⟨fun a ha => rfl, Nat.le_refl _⟩, fun a' ha' => JVal.noConfusion ha'⟩
    | ref a =>
      simp only [normalizeF] at hr
      cases hn : h.lookupA a with
      | none => rw [hn] at hr; exact Option.noConfusion hr
      | some node =>
        rw [hn] at hr
        cases node with
        | arr elems =>
          simp only [bind, Option.bind_eq_some] at hr
          obtain ⟨rl, hl, hr⟩ := hr
          obtain rfl := (Option.some.inj hr).symm
          obtain ⟨hag, hm⟩ := normalizeListWith_extends _ hnv elems h rl hl
          refine ⟨⟨agreeOn_trans hag (agreeOn_alloc rl.2 (.arr rl.1)), ?_⟩, ?_⟩
          · show h.next ≤ rl.2.next + 1
            omega
          · intro a' ha'
            have he : rl.2.next = a' := JVal.ref.inj ha'
            subst he
            constructor
            · exact hm
            · show rl.2.next < rl.2.next + 1
              omega
        | obj entries =>
          simp only [bind, Option.bind_eq_some] at hr
          obtain ⟨rl, hl, hr⟩ := hr
          obtain rfl := (Option.some.inj hr).symm
          obtain ⟨hag, hm⟩ := normalizeEntriesWith_extends _ hnv entries h rl hl
          refine ⟨⟨agreeOn_trans hag (agreeOn_alloc rl.2 (.obj rl.1)), ?_⟩, ?_⟩
          · show h.next ≤ rl.2.next + 1
            omega
          · intro a' ha'
            have he : rl.2.next = a' := JVal.ref.inj ha'
            subst he
            constructor
            · exact hm
            · show rl.2.next < rl.2.next + 1
              omega

theorem readbackListWith_congr (rb1 rb2 : JVal → Option Value) :
    ∀ (l : List JVal), (∀ w ∈ l, rb1 w = rb2 w) →
      readbackListWith rb1 l = readbackListWith rb2 l := by
  intro l
  induction l with
  | nil => intro _; rfl
  | cons v rest ih =>
    intro hp
    simp only [readbackListWith]
    rw [hp v (List.mem_cons_self v rest),
      ih (fun w hw => hp w (List.mem_cons_of_mem v hw))]

theorem readbackEntriesWith_congr (rb1 rb2 : JVal → Option Value) :
    ∀ (l : List (String × JVal)), (∀ kv ∈ l, rb1 kv.2 = rb2 kv.2) →
      readbackEntriesWith rb1 l = readbackEntriesWith rb2 l := by
  intro l
  induction l with
  | nil => intro _; rfl
  | cons kv rest ih =>
    intro hp
    obtain ⟨k, v⟩ := kv
    simp only [readbackEntriesWith]
    rw [hp (k, v) (List.mem_cons_self (k, v) rest),
      ih (fun w hw => hp w (List.mem_cons_of_mem (k, v) hw))]

theorem readbackF_agree :
    ∀ (fuel : Nat) (v : JVal) (h h₂ : Heap),
      agreeOn h h₂ → heapWF h = true → valOkB h v = true →
      readbackF fuel v h₂ = readbackF fuel v h := by
  intro fuel
  induction fuel with
  | zero => intro v h h₂ _ _ _; rfl
  | succ fuel ih =>
    intro v h h₂ hag hwf hok
    cases v with
    | null => rfl
    | bool b => rfl
    | num m e => rfl
    | str s => rfl
    | ref a =>
      have hsome : (h.lookupA a).isSome = true := hok
      obtain ⟨n, hn⟩ := Option.isSome_iff_exists.mp hsome
      have hn2 : h₂.lookupA a = some n := by rw [hag a hsome, hn]
      have hnode := closed_node h hwf a n hn
      cases n with
      | arr elems =>
        have hchild : ∀ w ∈ elems, valOkB h w = true := by
          simp only [nodeOkB, List.all_eq_true] at hnode
          exact hnode
        have e1 : readbackF (fuel + 1) (JVal.ref a) h₂ =
            Option.map Value.arr (readbackListWith (fun w => readbackF fuel w h₂) elems) := by
          simp [readbackF, hn2]
        have e2 : readbackF (fuel + 1) (JVal.ref a) h =
            Option.map Value.arr (readbackListWith (fun w => readbackF fuel w h) elems) := by
          simp [readbackF, hn]
        rw [e1, e2, readbackListWith_congr (fun w => readbackF fuel w h₂)
          (fun w => readbackF fuel w h) elems
          (fun w hw => ih w h h₂ hag hwf (hchild w hw))]
      | obj entries =>
        have hchild : ∀ kv ∈ entries, valOkB h kv.2 = true := by
          simp only [nodeOkB, List.all_eq_true] at hnode
          exact hnode
        have e1 : readbackF (fuel + 1) (JVal.ref a) h₂ =
            Option.map Value.obj (readbackEntriesWith (fun w => readbackF fuel w h₂) entries) := by
          simp [readbackF, hn2]
        have e2 : readbackF (fuel + 1) (JVal.ref a) h =
            Option.map Value.obj (readbackEntriesWith (fun w => readbackF fuel w h) entries) := by
          simp [readbackF, hn]
        rw [e1, e2, readbackEntriesWith_congr (fun w => readbackF fuel w h₂)
          (fun w => readbackF fuel w h) entries
          (fun kv hkv => ih kv.2 h h₂ hag hwf (hchild kv hkv))]

theorem normalize_set_frame
    (h : Heap) (root : JVal) (fuel : Nat) (t : Value) (child : JVal)
    (hwf : heapWF h = true) (hroot : valOkB h root = true)
    (hread : readbackF fuel root h = some t)
    (c : JVal) (h₁ : Heap) (hnorm : normalizeJ child h = some (c, h₁))
    (k' : JKey) (payload : JVal) (h₂ : Heap)
    (hset : setJ c k' payload h₁ = some h₂) :
    readbackF fuel root h₂ = some t := by
  obtain ⟨⟨hag1, hm1⟩, href⟩ :=
    normalizeF_extends (h.mem.length + 1) child h (c, h₁) hnorm
  have final : ∀ (a' : Nat) (r : JVal × Heap) (newnode : JNode),
      c = JVal.ref a' →
      normalizeJ payload h₁ = some r →
      h₂ = r.2.write a' newnode →
      readbackF fuel root h₂ = some t := by
    intro a' r newnode hc hp hh2
    obtain ⟨⟨hag2, hm2⟩, _⟩ :=
      normalizeF_extends (h₁.mem.length + 1) payload h₁ r hp
    have hfr : h.next ≤ a' := (href a' hc).1
    have hagF : agreeOn h h₂ := by
      intro a ha
      have e1 := hag1 a ha
      have ha1 : (h₁.lookupA a).isSome = true := by rw [e1]; exact ha
      have e2 := hag2 a ha1
      have hlt : a < h.next := bounded_lt h hwf a ha
      have hne : a ≠ a' := by omega
      rw [hh2, lookupA_write_ne r.2 a' newnode a hne, e2, e1]
    rw [readbackF_agree fuel root h h₂ hagF hwf hroot]
    exact hread
  cases k' with
  | s key' =>
    cases c with
    | null => exact Option.noConfusion hset
    | bool b => exact Option.noConfusion hset
    | num m e => exact Option.noConfusion hset
    | str s => exact Option.noConfusion hset
    | ref a' =>
      cases hn : h₁.lookupA a' with
      | none =>
        have hx : (none : Option Heap) = some h₂ := by
          rw [← hset]; simp [setJ, hn]
        exact Option.noConfusion hx
      | some node =>
        cases node with
        | arr elems =>
          have hx : (none : Option Heap) = some h₂ := by
            rw [← hset]; simp [setJ, hn]
          exact Option.noConfusion hx
        | obj entries =>
          have hset2 : (do
              let r ← normalizeJ payload h₁
              some (r.2.write a' (.obj (objInsertJ entries key' r.1)))) = some h₂ := by
            rw [← hset]; simp [setJ, hn]
          simp only [bind, Option.bind_eq_some] at hset2
          obtain ⟨r, hp, hset2⟩ := hset2
          exact final a' r _ rfl hp (Option.some.inj hset2).symm
  | i n' =>
    cases c with
    | null => exact Option.noConfusion hset
    | bool b => exact Option.noConfusion hset
    | num m e => exact Option.noConfusion hset
    | str s => exact Option.noConfusion hset
    | ref a' =>
      cases hn : h₁.lookupA a' with
      | none =>
        have hx : (none : Option Heap) = some h₂ := by
          rw [← hset]; simp [setJ, hn]
        exact Option.noConfusion hx
      | some node =>
        cases node with
        | obj entries =>
          have hx : (none : Option Heap) = some h₂ := by
            rw [← hset]; simp [setJ, hn]
          exact Option.noConfusion hx
        | arr elems =>
          by_cases hb : n' < elems.length
          · have hset2 : (do
                let r ← normalizeJ payload h₁
                some (r.2.write a' (.arr (elems.set n' r.1)))) = some h₂ := by
              rw [← hset]; simp [setJ, hn, hb]
            simp only [bind, Option.bind_eq_some] at hset2
            obtain ⟨r, hp, hset2⟩ := hset2
            exact final a' r _ rfl hp (Option.some.inj hset2).symm
          · have hx : (none : Option Heap) = some h₂ := by
              rw [← hset]; simp [setJ, hn, hb]
            exact Option.noConfusion hx

/-- C9: for every well-formed heap, every value `root` readable from
it, and every key or index `k` with `getJ root k h = some (c, h₁)`, the
sub-value `c` is a deep copy: any later mutation of `c` through `set`
(any key `k'` and any payload) leaves the tree readable from `root`
exactly as it was — `get` normalizes the child into freshly allocated
nodes, and `set` writes only to the copy's own node and to fresh
allocations. -/
theorem get_returns_deep_copy
    (h : Heap) (root : JVal) (k : JKey) (fuel : Nat) (t : Value)
    (hwf : heapWF h = true) (hroot : valOkB h root = true)
    (hread : readbackF fuel root h = some t)
    (c : JVal) (h₁ : Heap) (hget : getJ root k h = some (c, h₁))
    (k' : JKey) (payload : JVal) (h₂ : Heap)
    (hset : setJ c k' payload h₁ = some h₂) :
    readbackF fuel root h₂ = some t := by
  obtain ⟨child, hnorm⟩ : ∃ child, normalizeJ child h = some (c, h₁) := by
    cases k with
    | s key =>
      cases root with
      | null => exact Option.noConfusion hget
      | bool b => exact Option.noConfusion hget
      | num m e => exact Option.noConfusion hget
      | str s => exact Option.noConfusion hget
      | ref a =>
        cases hn : h.lookupA a with
        | none =>
          have hx : (none : Option (JVal × Heap)) = some (c, h₁) := by
            rw [← hget]; simp [getJ, hn]
          exact Option.noConfusion hx
        | some node =>
          cases node with
          | arr elems =>
            have hx : (none : Option (JVal × Heap)) = some (c, h₁) := by
              rw [← hget]; simp [getJ, hn]
            exact Option.noConfusion hx
          | obj entries =>
            have hget2 : (match entries.lookup key with
                | some child => normalizeJ child h
                | none => none) = some (c, h₁) := by
              rw [← hget]; simp [getJ, hn]
            cases hc : entries.lookup key with
            | none => rw [hc] at hget2; exact Option.noConfusion hget2
            | some child => rw [hc] at hget2; exact ⟨child, hget2⟩
    | i n =>
      cases root with
      | null => exact Option.noConfusion hget
      | bool b => exact Option.noConfusion hget
      | num m e => exact Option.noConfusion hget
      | str s => exact Option.noConfusion hget
      | ref a =>
        cases hn : h.lookupA a with
        | none =>
          have hx : (none : Option (JVal × Heap)) = some (c, h₁) := by
            rw [← hget]; simp [getJ, hn]
          exact Option.noConfusion hx
        | some node =>
          cases node with
          | obj entries =>
            have hx : (none : Option (JVal × Heap)) = some (c, h₁) := by
              rw [← hget]; simp [getJ, hn]
            exact Option.noConfusion hx
          | arr elems =>
            have hget2 : (match elems.get? n with
                | some child => normalizeJ child h
                | none => none) = some (c, h₁) := by
              rw [← hget]; simp [getJ, hn]
            cases hc : elems.get? n with
            | none => rw [hc] at hget2; exact Option.noConfusion hget2
            | some child => rw [hc] at hget2; exact ⟨child, hget2⟩
  exact normalize_set_frame h root fuel t child hwf hroot hread c h₁ hnorm
    k' payload h₂ hset

/-- C9 witness: getting the nested object under `a` yields a fresh copy
at address 2; setting `b` to `99` on the copy leaves the original tree
(with `b = 1`) unchanged. -/
theorem get_returns_deep_copy_witness :
    (heapWF ⟨[(0, .obj [("a", .ref 1)]), (1, .obj [("b", .num 1 0)])], 2⟩ = true) ∧
    (getJ (.ref 0) (.s "a")
        ⟨[(0, .obj [("a", .ref 1)]), (1, .obj [("b", .num 1 0)])], 2⟩ =
      some (.ref 2,
        ⟨[(0, .obj [("a", .ref 1)]), (1, .obj [("b", .num 1 0)]),
          (2, .obj [("b", .num 1 0)])], 3⟩)) ∧
    (setJ (.ref 2) (.s "b") (.num 99 0)
        ⟨[(0, .obj [("a", .ref 1)]), (1, .obj [("b", .num 1 0)]),
          (2, .obj [("b", .num 1 0)])], 3⟩ =
      some ⟨[(0, .obj [("a", .ref 1)]), (1, .obj [("b", .num 1 0)]),
        (2, .obj [("b", .num 99 0)])], 3⟩) ∧
    readbackF 3 (.ref 0)
        ⟨[(0, .obj [("a", .ref 1)]), (1, .obj [("b", .num 1 0)]),
          (2, .obj [("b", .num 99 0)])], 3⟩ =
      some (.obj [("a", .obj [("b", .num 1 0)])]) := by
  refine ⟨rfl, rfl, rfl, ?_⟩
  exact get_returns_deep_copy
    ⟨[(0, .obj [("a", .ref 1)]), (1, .obj [("b", .num 1 0)])], 2⟩
    (.ref 0) (.s "a") 3 (.obj [("a", .obj [("b", .num 1 0)])])
    rfl rfl rfl
    (.ref 2)
    ⟨[(0, .obj [("a", .ref 1)]), (1, .obj [("b", .num 1 0)]),
      (2, .obj [("b", .num 1 0)])], 3⟩
    rfl
    (.s "b") (.num 99 0)
    ⟨[(0, .obj [("a", .ref 1)]), (1, .obj [("b", .num 1 0)]),
      (2, .obj [("b", .num 99 0)])], 3⟩
    rfl

/-- C10: through `getOrDefault`, a key stored as `null` is
indistinguishable from an absent key: both return the (normalized)
default, because the JavaScript `??` operator treats the stored `null`
like `undefined`. -/
theorem getOrDefault_stored_null_gives_default
    (entries : List (String × Value)) (key : String) (d : Value) :
    (entries.lookup key = some .null → getOrDefault (.obj entries) key d = d) ∧
    (entries.lookup key = none → getOrDefault (.obj entries) key d = d) := by
  constructor <;> intro h <;> simp [getOrDefault, h]

/-- C10 witness: a stored `null` under `a` yields the default `7`. -/
theorem getOrDefault_stored_null_gives_default_witness :
    ([(("a" : String), Value.null)].lookup "a" = some Value.null) ∧
    getOrDefault (.obj [("a", .null)]) "a" (.num 7 0) = .num 7 0 :=
  ⟨rfl, (getOrDefault_stored_null_gives_default [("a", .null)] "a" (.num 7 0)).1 rfl⟩

end ORT




